import Mathlib

/-!
# Verification of the fhk optimizer core

A shallow embedding of the optimizer core: the constant-folding /
simplification / CSE / DCE pass (`opt_fold.rs`), the fixed-point optimizer
driver (`optimize.rs`), and the per-language finish-emit aggregation
(`lang.rs`), together with theorems about them.

The instruction encoding, opcode predicates and the constant pool live in
`ir.rs` / `intern.rs`, which are not part of the sources under verification;
those parts are modelled from the specification (see the doc comments marked
"Modelled from the spec").
-/

/-! ## Instructions (modelled from the spec: `ir.rs` is not among the sources)

An `Ins` is a fixed-width record: an opcode, a result type, and three operand
slots `a`, `b`, `c`.  `bc` packs `b` and `c` into one 32-bit immediate.
Bitwise equality of instruction records is structural equality of `Ins`.
-/

/-- Modelled from the spec: the closed opcode enumeration, restricted to the
opcodes the specified passes mention: constants (`KINT`, `KINT64`, `KFP64`),
arithmetic (`ADD`, `SUB`, `MUL`, `DIV`, `UDIV`, `POW`), `MOV`, a non-constant
value instruction (`PARAM`), and control instructions (`RET`, `JMP`, `IF`). -/
inductive Opcode where
  | KINT | KINT64 | KFP64
  | ADD | SUB | MUL | DIV | UDIV | POW
  | MOV | PARAM
  | RET | JMP | IF
deriving DecidableEq, Repr, Inhabited

/-- Modelled from the spec: the closed result-type enumeration
(I8, I16, I32, I64, F32, F64, plus a control/void type `fx`). -/
inductive Ty where
  | i8 | i16 | i32 | i64 | f32 | f64 | fx
deriving DecidableEq, Repr, Inhabited

/-- Modelled from the spec: one instruction record. Slots hold 16-bit fields
in the real encoding; here they are `Nat`s, with `bc` the packed 32-bit
immediate `b + 2^16 * c`. -/
structure Ins where
  op : Opcode
  ty : Ty
  a : Nat
  b : Nat
  c : Nat
deriving DecidableEq, Repr, Inhabited

/-- The packed 32-bit immediate spanning slots `b` and `c`. -/
def Ins.bc (i : Ins) : Nat := i.b + 65536 * i.c

/-- `Ins::KINT(ty, imm)`: inline 32-bit constant, immediate split into `b`/`c`. -/
def Ins.KINT (ty : Ty) (imm : Nat) : Ins := ⟨.KINT, ty, 0, imm % 65536, imm / 65536⟩

/-- `Ins::KINT64(ty, handle)`: interned 64-bit integer constant. -/
def Ins.KINT64 (ty : Ty) (handle : Nat) : Ins :=
  ⟨.KINT64, ty, 0, handle % 65536, handle / 65536⟩

/-- `Ins::KFP64(ty, handle)`: interned 64-bit float constant. -/
def Ins.KFP64 (ty : Ty) (handle : Nat) : Ins :=
  ⟨.KFP64, ty, 0, handle % 65536, handle / 65536⟩

/-- Modelled from the spec: `is_const` holds exactly for the three
compile-time constant opcodes. -/
def Opcode.is_const : Opcode → Bool
  | .KINT | .KINT64 | .KFP64 => true
  | _ => false

/-- Modelled from the spec: `is_control` holds for instructions carrying
control-flow successors (`RET` ends control with no successor). -/
def Opcode.is_control : Opcode → Bool
  | .RET | .JMP | .IF => true
  | _ => false

/-- Modelled from the spec: `is_cse` marks instructions for which bitwise
equality implies semantic interchangeability; value instructions are
hash-consed, control instructions are not. -/
def Opcode.is_cse : Opcode → Bool
  | .RET | .JMP | .IF => false
  | _ => true

/-- Modelled from the spec: the number of value-operand slots of an opcode
(operand slots come first: `a`, then `b`). `ins.inputs_mut()` iterates
exactly these slots in order. -/
def Opcode.numInputs : Opcode → Nat
  | .ADD | .SUB | .MUL | .DIV | .UDIV | .POW => 2
  | .MOV | .RET | .IF => 1
  | _ => 0

/-- Modelled from the spec: the slot indices holding control successors
(`ins.controls()`): `JMP` jumps to slot `a`; `IF` branches to slots `b`,`c`. -/
def Opcode.controlSlots : Opcode → List Nat
  | .JMP => [0]
  | .IF => [1, 2]
  | _ => []

/-- Read slot 0, 1 or 2 (`a`, `b`, `c`). -/
def Ins.getSlot (i : Ins) : Nat → Nat
  | 0 => i.a
  | 1 => i.b
  | _ => i.c

/-- Write slot 0, 1 or 2 (`a`, `b`, `c`). -/
def Ins.setSlot (i : Ins) (s : Nat) (v : Nat) : Ins :=
  match s with
  | 0 => { i with a := v }
  | 1 => { i with b := v }
  | _ => { i with c := v }

/-! ## 64-bit integer arithmetic helpers

Machine integers are embedded as `Int` with explicit reduction mod `2^64`.
-/

/-- The value of an `i64` bit pattern (`Nat` below `2^64`) as an integer. -/
def ofU64 (n : Nat) : Int := if n < 2 ^ 63 then (n : Int) else (n : Int) - 2 ^ 64

/-- The `u64` bit pattern of an integer (reduction mod `2^64`). -/
def toU64 (v : Int) : Nat := (v % (2 ^ 64 : Int)).toNat

/-- Truncation to 32 bits (Rust `as u32`). -/
def toU32 (v : Int) : Nat := (v % (2 ^ 32 : Int)).toNat

/-- Sign extension of a 32-bit pattern (Rust `as i32 as i64`). -/
def sx32 (n : Nat) : Int := if n < 2 ^ 31 then (n : Int) else (n : Int) - 2 ^ 32

/-- Two's-complement wrap-around at 64 bits. -/
def wrap64 (v : Int) : Int := ofU64 (toU64 v)

/-- `value == (value as i32) as i64`: the i64 value fits in an i32. -/
def fitsI32 (v : Int) : Bool := -(2 ^ 31) ≤ v && v < 2 ^ 31

/-! ## Rust float-to-int casts (only reachable through mixed-domain constant
reads, which no verified claim exercises) -/

/-- Modelled from the spec: Rust `as` cast from `f64` to `i64`
(truncation toward zero, saturating, NaN to 0). -/
def f64AsI64 (x : Float) : Int :=
  if x.isNaN then 0
  else if x ≤ -9223372036854775808.0 then -(2 ^ 63)
  else if 9223372036854775807.0 ≤ x then 2 ^ 63 - 1
  else if 0.0 ≤ x then (x.toUInt64.toNat : Int) else -(((-x).toUInt64.toNat : Int))

/-- Modelled from the spec: Rust `as` cast from `f64` to `i32`
(truncation toward zero, saturating, NaN to 0). -/
def f64AsI32 (x : Float) : Int :=
  if x.isNaN then 0
  else if x ≤ -2147483648.0 then -(2 ^ 31)
  else if 2147483647.0 ≤ x then 2 ^ 31 - 1
  else if 0.0 ≤ x then (x.toUInt32.toNat : Int) else -(((-x).toUInt32.toNat : Int))

/-! ## Fold pass state

The `Fold` scratch (`old_new`, `next`, `cse_map`, `code`) plus the constant
pool.  Modelled from the spec: the real pool is one byte-addressed
content-addressed bump arena; since Lean 4.14 has no float-bit conversion,
it is split into an integer pool and a float pool, each content-addressed.
No verified claim depends on float interning. -/
structure St where
  old_new : List (Option Nat)
  next : List Nat
  cse_map : List Nat
  code : List Ins
  ipool : List Int
  fpool : List Float

/-- A function: a code vector indexed by `InsId` and an entry id. -/
structure Func where
  code : List Ins
  entry : Nat
deriving DecidableEq, Repr, Inhabited

/-- The part of the compiler context `Fold::run` works on: the IR (a vector
of functions) and the constant pool. The `Fold` scratch is cleared at the
start of every run, so it is rebuilt fresh rather than carried. -/
structure Ocx where
  ir : List Func
  ipool : List Int
  fpool : List Float

/-- The ways the embedded pass can stop abnormally: `fuel` is an artifact of
the fuel-indexed embedding of unbounded recursion; the rest model Rust
panics (out-of-bounds indexing, division fault, `unreachable!()` /
`Option::unwrap` on `None`). -/
inductive Panic where
  | fuel | oob | divFault | unreach
deriving DecidableEq, Repr

/-- Intern an i64 into the integer pool: content-addressed, so interning an
existing value returns its existing handle, and a new value is appended. -/
def internInt : List Int → Int → Nat × List Int
  | [], v => (0, [v])
  | x :: rest, v =>
    if x = v then (0, x :: rest)
    else
      match internInt rest v with
      | (i, rest') => (i + 1, x :: rest')

/-- Intern an f64 into the float pool. Byte-level content addressing is
approximated by IEEE equality (Lean 4.14 exposes no float-bit conversion);
no verified claim depends on float interning. -/
def internFloat : List Float → Float → Nat × List Float
  | [], v => (0, [v])
  | x :: rest, v =>
    if x == v then (0, x :: rest)
    else
      match internFloat rest v with
      | (i, rest') => (i + 1, x :: rest')

/-- `kintvalue`: read a constant instruction as an i64.  `KINT` sign-extends
its 32-bit immediate; `KINT64` / `KFP64` dereference their pool handle
(reading a float as int is Rust's saturating cast). -/
def kintvalue (ipool : List Int) (fpool : List Float) (ins : Ins) : Except Panic Int :=
  match ins.op with
  | .KINT => .ok (sx32 ins.bc)
  | .KINT64 =>
    match ipool[ins.bc]? with
    | some v => .ok v
    | none => .error .oob
  | .KFP64 =>
    match fpool[ins.bc]? with
    | some v => .ok (f64AsI64 v)
    | none => .error .oob
  | _ => .error .unreach

/-- `kfpvalue`: read a constant instruction as an f64. -/
def kfpvalue (ipool : List Int) (fpool : List Float) (ins : Ins) : Except Panic Float :=
  match ins.op with
  | .KINT => .ok (Float.ofInt (sx32 ins.bc))
  | .KINT64 =>
    match ipool[ins.bc]? with
    | some v => .ok (Float.ofInt v)
    | none => .error .oob
  | .KFP64 =>
    match fpool[ins.bc]? with
    | some v => .ok v
    | none => .error .oob
  | _ => .error .unreach

/-- `newkint`: emit an inline `KINT` when the value fits in an i32, else
intern the 8 bytes and emit `KINT64`. -/
def newkint (pool : List Int) (ty : Ty) (v : Int) : Ins × List Int :=
  if fitsI32 v then (Ins.KINT ty (toU32 v), pool)
  else
    match internInt pool v with
    | (h, pool') => (Ins.KINT64 ty h, pool')

/-- `newkfp`: emit an inline `KINT` when the value is exactly an i32, else
intern and emit `KFP64`. -/
def newkfp (fpool : List Float) (ty : Ty) (v : Float) :
    Ins × List Float :=
  if v == Float.ofInt (f64AsI32 v) then (Ins.KINT ty (toU32 (f64AsI32 v)), fpool)
  else
    match internFloat fpool v with
    | (h, fpool') => (Ins.KFP64 ty h, fpool')

/-- `foldintarith`: compile-time integer arithmetic.  `+`, `-`, `*` wrap at
64 bits (release-profile Rust semantics, as the spec states); `/` faults on
a zero divisor and on `i64::MIN / -1` (Rust division always checks these);
`UDIV` is unsigned and faults on a zero divisor; any other opcode is
`unreachable!()`. -/
def foldintarith (op : Opcode) (l r : Int) : Except Panic Int :=
  match op with
  | .ADD => .ok (wrap64 (l + r))
  | .SUB => .ok (wrap64 (l - r))
  | .MUL => .ok (wrap64 (l * r))
  | .DIV => if r = 0 || (l = -(2 ^ 63) && r = -1) then .error .divFault
            else .ok (Int.tdiv l r)
  | .UDIV => if toU64 r = 0 then .error .divFault
             else .ok (ofU64 (toU64 l / toU64 r))
  | _ => .error .unreach

/-- `foldfparith`: compile-time IEEE-754 double arithmetic (`POW` is `powf`);
any other opcode is `unreachable!()`. -/
def foldfparith (op : Opcode) (l r : Float) : Except Panic Float :=
  match op with
  | .ADD => .ok (l + r)
  | .SUB => .ok (l - r)
  | .MUL => .ok (l * r)
  | .DIV => .ok (l / r)
  | .POW => .ok (l.pow r)
  | _ => .error .unreach

/-- The result of one `fold` step. -/
inductive FoldStatus where
  | Done (i : Ins)
  | Again (i : Ins)
  | New (id : Nat)

/-- `ipat!(code, v; const)`: the operand at `v` is a constant. Indexing out
of bounds is a panic. -/
def isConstAt (code : List Ins) (v : Nat) : Except Panic Bool :=
  match code[v]? with
  | some i => .ok i.op.is_const
  | none => .error .oob

/-- `ipat!(code, v; k)`: the operand at `v` is `KINT` with immediate `k`. -/
def isKintAt (code : List Ins) (v : Nat) (k : Nat) : Except Panic Bool :=
  match code[v]? with
  | some i => .ok (i.op == .KINT && i.bc == k)
  | none => .error .oob

/-- `ins.inputs_mut().swap(0, 1)` for a two-operand instruction. -/
def swap01 (ins : Ins) : Ins := { ins with a := ins.b, b := ins.a }

/-- The `m!(const const)` arm shared by the six arithmetic opcodes: read both
constant operands, evaluate in the operand-type domain (float for F32/F64,
integer otherwise), and emit a fresh constant. -/
def constFold (st : St) (ins : Ins) : Except Panic (FoldStatus × St) := do
  match st.code[ins.a]?, st.code[ins.b]? with
  | some left, some right =>
    if ins.ty = .f32 ∨ ins.ty = .f64 then do
      let lv ← kfpvalue st.ipool st.fpool left
      let rv ← kfpvalue st.ipool st.fpool right
      let v ← foldfparith ins.op lv rv
      match newkfp st.fpool ins.ty v with
      | (k, fpool') => .ok (.Done k, { st with fpool := fpool' })
    else do
      let lv ← kintvalue st.ipool st.fpool left
      let rv ← kintvalue st.ipool st.fpool right
      let v ← foldintarith ins.op lv rv
      match newkint st.ipool ins.ty v with
      | (k, ipool') => .ok (.Done k, { st with ipool := ipool' })
  | _, _ => .error .oob

/-- The `fold` rewrite rules, arm for arm as in the source: constant
arithmetic, commutative canonicalization for `ADD`/`MUL`, the identities
`x+0 = x`, `x*1 = x/1 = x`, `x*0 = 0`, `MOV` elimination, and `Done`
unchanged for everything else.  Guards are evaluated in source order with
Rust's short-circuiting (for `ADD`, `MUL`, `DIV`, `UDIV` every arm path
reads both operand slots; for `SUB`/`POW` slot `b` is read only when slot
`a` is constant). -/
def fold (st : St) (ins : Ins) : Except Panic (FoldStatus × St) := do
  match ins.op with
  | .ADD => do
    let ca ← isConstAt st.code ins.a
    let cb ← isConstAt st.code ins.b
    if ca && cb then constFold st ins
    else if ca || (decide (ins.b < ins.a) && !cb) then .ok (.Again (swap01 ins), st)
    else do
      let z ← isKintAt st.code ins.b 0
      if z then .ok (.New ins.a, st) else .ok (.Done ins, st)
  | .MUL => do
    let ca ← isConstAt st.code ins.a
    let cb ← isConstAt st.code ins.b
    if ca && cb then constFold st ins
    else if ca || (decide (ins.b < ins.a) && !cb) then .ok (.Again (swap01 ins), st)
    else do
      let o ← isKintAt st.code ins.b 1
      if o then .ok (.New ins.a, st)
      else do
        let z ← isKintAt st.code ins.b 0
        if z then .ok (.Done (Ins.KINT ins.ty 0), st) else .ok (.Done ins, st)
  | .DIV | .UDIV => do
    let ca ← isConstAt st.code ins.a
    if ca then do
      let cb ← isConstAt st.code ins.b
      if cb then constFold st ins
      else do
        let o ← isKintAt st.code ins.b 1
        if o then .ok (.New ins.a, st) else .ok (.Done ins, st)
    else do
      let o ← isKintAt st.code ins.b 1
      if o then .ok (.New ins.a, st) else .ok (.Done ins, st)
  | .SUB | .POW => do
    let ca ← isConstAt st.code ins.a
    if ca then do
      let cb ← isConstAt st.code ins.b
      if cb then constFold st ins else .ok (.Done ins, st)
    else .ok (.Done ins, st)
  | .MOV => .ok (.New ins.a, st)
  | _ => .ok (.Done ins, st)

/-- A `fold` outcome with `Again` discharged. -/
inductive FoldRes where
  | Done (i : Ins)
  | New (id : Nat)

/-- The `loop { match fold(...) }` in `visit`: re-fold on `Again` until the
status is `Done` or `New` (fuel-indexed; two steps always suffice, which is
proved below). -/
def foldSteps (fuel : Nat) (st : St) (ins : Ins) : Except Panic (FoldRes × St) :=
  match fuel with
  | 0 => .error .fuel
  | fuel + 1 => do
    match ← fold st ins with
    | (.Again ins', st') => foldSteps fuel st' ins'
    | (.Done i, st') => .ok (.Done i, st')
    | (.New id, st') => .ok (.New id, st')

/-- Insertion into the new code: CSE-deduplicated through the hash table
when `is_cse` (modelled as an equality-keyed map, which is what the
`fxhash`-keyed `HashTable` implements), plain append otherwise. -/
def doneInsert (st : St) (ins : Ins) : Nat × St :=
  if ins.op.is_cse then
    match st.cse_map.find? (fun idx => st.code[idx]? == some ins) with
    | some idx => (idx, st)
    | none =>
      (st.code.length,
        { st with code := st.code ++ [ins], cse_map := st.cse_map ++ [st.code.length] })
  else (st.code.length, { st with code := st.code ++ [ins] })

/-- The `Done` handler in `visit`: enqueue control successors of a control
instruction, then insert into the new code. -/
def doneHandler (st : St) (ins : Ins) : Nat × St :=
  doneInsert
    (if ins.op.is_control then
      { st with next := st.next ++ ins.op.controlSlots.map ins.getSlot }
    else st) ins

/-- The tail of `visit` after operand rewriting: run the fold loop, handle
the result (`New` uses the id directly, `Done` goes through the `Done`
handler), then record `old_new[id]`. -/
def visitFinish (fuel : Nat) (st : St) (id : Nat) (ins : Ins) :
    Except Panic (Nat × St) := do
  let (res, st) ← foldSteps fuel st ins
  let (new, st) :=
    match res with
    | .New nid => (nid, st)
    | .Done dins => doneHandler st dins
  .ok (new, { st with old_new := st.old_new.set id (some new) })

/-- `visit`: post-order rewrite of one instruction.  Returns the already
assigned id if present; otherwise rewrites each operand slot recursively (in
slot order: `a` then `b`), folds, handles the result, and records
`old_new[id]`.  Fuel bounds the recursion depth. -/
def visit (fn : Func) (fuel : Nat) (st : St) (id : Nat) : Except Panic (Nat × St) :=
  match fuel with
  | 0 => .error .fuel
  | fuel + 1 =>
    match st.old_new[id]? with
    | none => .error .oob
    | some (some new) => .ok (new, st)
    | some none =>
      match fn.code[id]? with
      | none => .error .oob
      | some ins =>
        if ins.op.numInputs = 0 then visitFinish (fuel + 1) st id ins
        else do
          let (v, st1) ← visit fn fuel st ins.a
          if ins.op.numInputs = 1 then
            visitFinish (fuel + 1) st1 id { ins with a := v }
          else do
            let (v2, st2) ← visit fn fuel st1 ins.b
            visitFinish (fuel + 1) st2 id { ins with a := v, b := v2 }

/-- The BFS driver: `while let Some(id) = next.pop_front() { visit(id) }`
(fuel-indexed on the number of queue iterations). -/
def runQueue (fn : Func) (vfuel : Nat) (qfuel : Nat) (st : St) : Except Panic St :=
  match qfuel with
  | 0 =>
    match st.next with
    | [] => .ok st
    | _ :: _ => .error .fuel
  | qfuel + 1 =>
    match st.next with
    | [] => .ok st
    | id :: rest => do
      let (_, st') ← visit fn vfuel { st with next := rest } id
      runQueue fn vfuel qfuel st'

/-- Rewrite the control slots in `slots` of one instruction through
`old_new` (`Option::unwrap` on an unset entry is a panic). -/
def fixSlots (old_new : List (Option Nat)) (ins : Ins) (slots : List Nat) :
    Except Panic Ins :=
  match slots with
  | [] => .ok ins
  | s :: rest =>
    match old_new[ins.getSlot s]? with
    | some (some v) => fixSlots old_new (ins.setSlot s v) rest
    | some none => .error .unreach
    | none => .error .oob

/-- `fixup`: map every control slot of every instruction in the new code
through `old_new`. -/
def fixupCode (old_new : List (Option Nat)) : List Ins → Except Panic (List Ins)
  | [] => .ok []
  | ins :: rest => do
    let ins' ← fixSlots old_new ins ins.op.controlSlots
    let rest' ← fixupCode old_new rest
    .ok (ins' :: rest')

/-- `Fold::run`: clear the scratch, seed the queue with the entry, drain it,
fix up control successors, then install the new code and entry into the
function. -/
def Fold.run (fuel : Nat) (ocx : Ocx) (fid : Nat) : Except Panic Ocx :=
  match ocx.ir[fid]? with
  | none => .error .oob
  | some fn => do
    let st : St :=
      ⟨List.replicate fn.code.length none, [fn.entry], [], [], ocx.ipool, ocx.fpool⟩
    let st ← runQueue fn fuel fuel st
    let code' ← fixupCode st.old_new st.code
    match st.old_new[fn.entry]? with
    | some (some e) =>
      .ok ⟨ocx.ir.set fid ⟨code', e⟩, st.ipool, st.fpool⟩
    | some none => .error .unreach
    | none => .error .oob

/-! ## Optimizer driver (`optimize.rs`) -/

/-- `MAX_ITER`: the outer-iteration cap. -/
def MAX_ITER : Nat := 100

/-- `irsize`: sum over functions of the code length, plus 37 per function. -/
def irsize (ir : List Func) : Nat :=
  (ir.map (fun f => f.code.length)).sum + 37 * ir.length

/-- The fixed-point loop of `Optimize::run`: run one outer iteration
(`step`, standing for `optimize` — the non-FOLD passes it dispatches to are
not among the sources, so one iteration is abstracted as a state
transformer with the IR projected out by `view`), compare the IR size with
the previous iteration's, stop on equality, else continue with the new
size.  Returns the final state and the number of iterations performed. -/
def driverLoop {σ : Type} (step : σ → σ) (view : σ → List Func) :
    Nat → Nat → σ → σ × Nat
  | 0, _, s => (s, 0)
  | n + 1, size, s =>
    let s' := step s
    let ns := irsize (view s')
    if size = ns then (s', 1)
    else
      match driverLoop step view n ns s' with
      | (r, k) => (r, k + 1)

/-- `Optimize::run`: iterate up to `MAX_ITER` times starting from the
initial IR size; always returns `Ok`. -/
def Optimize.run {σ : Type} (step : σ → σ) (view : σ → List Func) (s : σ) :
    Except Unit σ × Nat :=
  match driverLoop step view MAX_ITER (irsize (view s)) s with
  | (r, k) => (.ok r, k)

/-- The optimization flags. -/
inductive OptFlag where
  | FOLD | GOTO | INLINE | LOOP | PHI | SWITCH
deriving DecidableEq, Repr, Fintype

/-- The flag set one byte selects: `f`,`g`,`i`,`l`,`p`,`s` each select one
flag, `a` selects all, anything else none. -/
def charFlag (b : UInt8) : Finset OptFlag :=
  if b = 102 then {.FOLD}
  else if b = 103 then {.GOTO}
  else if b = 105 then {.INLINE}
  else if b = 108 then {.LOOP}
  else if b = 112 then {.PHI}
  else if b = 115 then {.SWITCH}
  else if b = 97 then Finset.univ
  else ∅

/-- `parse_optflags`: accumulate the per-byte flag sets, then complement the
result if the first byte is `-` (ASCII 45). -/
def parse_optflags (flags : List UInt8) : Finset OptFlag :=
  let oflg := flags.foldl (fun s b => s ∪ charFlag b) ∅
  if flags.head? = some 45 then oflgᶜ else oflg

/-! ## Language dispatch (`lang.rs`) -/

/-- Modelled from the spec: the closed language enumeration is generated by
`foreach_lang!` from a central list outside the sources; a three-language
instance suffices for the specified behavior. -/
inductive Lang where
  | A | B | C
deriving DecidableEq, Repr, Fintype

/-- The enumeration order of `Lang` (the iteration order of its bitset). -/
def langOrder : List Lang := [.A, .B, .C]

/-- The present languages of a `LangState`, in enumeration order. -/
def langList (present : Finset Lang) : List Lang :=
  langOrder.filter (· ∈ present)

/-- Rust `Result::and`: keep the first error, else the second result. -/
def resultAnd {ε : Type} (r1 r2 : Except ε Unit) : Except ε Unit :=
  match r1 with
  | .error e => .error e
  | .ok _ => r2

/-- `LangState::finish`: for each present language in enumeration order,
invoke its `finish_emit` and fold the outcomes with `Result::and`.  The
per-language payload move is memory mechanics; `f` gives each language's
`finish_emit` outcome, and the returned list is the trace of invocations. -/
def LangState.finish {ε : Type} (present : Finset Lang) (f : Lang → Except ε Unit) :
    Except ε Unit × List Lang :=
  (langList present).foldl
    (fun acc l => (resultAnd acc.1 (f l), acc.2 ++ [l])) (.ok (), [])

/-- The claim-side reference for error aggregation: the first error in a
list of outcomes, or `Ok`. -/
def firstError {ε : Type} : List (Except ε Unit) → Except ε Unit
  | [] => .ok ()
  | .ok _ :: rest => firstError rest
  | .error e :: _ => .error e

/-! ## Claim-side reference definitions -/

/-- Claim-side reference: the union of the flag sets selected by the input
bytes (unknown characters contribute nothing). -/
def specUnion (bs : List UInt8) : Finset OptFlag :=
  bs.foldr (fun b acc => charFlag b ∪ acc) ∅

/-- Claim-side reference arithmetic: two's-complement 64-bit wrapping for the
signed operations, unsigned 64-bit division for `UDIV`. -/
def refIntArith (op : Opcode) (l r : Int) : Int :=
  match op with
  | .ADD => wrap64 (l + r)
  | .SUB => wrap64 (l - r)
  | .MUL => wrap64 (l * r)
  | .DIV => wrap64 (Int.tdiv l r)
  | .UDIV => ofU64 (toU64 l / toU64 r)
  | _ => 0

/-! ## Well-formedness and invariants -/

/-- Well-formedness of one instruction of a function with `codeLen`
instructions against pools of the given lengths: operand and control slots
in bounds, constant handles valid, `POW` typed float and `UDIV` typed
integer. -/
def insWf (ipoolLen fpoolLen codeLen : Nat) (ins : Ins) : Prop :=
  (1 ≤ ins.op.numInputs → ins.a < codeLen) ∧
  (2 ≤ ins.op.numInputs → ins.b < codeLen) ∧
  (∀ s ∈ ins.op.controlSlots, ins.getSlot s < codeLen) ∧
  (ins.op = .KINT64 → ins.bc < ipoolLen) ∧
  (ins.op = .KFP64 → ins.bc < fpoolLen) ∧
  (ins.op = .POW → ins.ty = .f32 ∨ ins.ty = .f64) ∧
  (ins.op = .UDIV → ¬(ins.ty = .f32 ∨ ins.ty = .f64))

instance (ipoolLen fpoolLen codeLen : Nat) (ins : Ins) :
    Decidable (insWf ipoolLen fpoolLen codeLen ins) := by
  unfold insWf; infer_instance

/-- Well-formedness of a function: entry in bounds and every instruction
well-formed. -/
def funcWf (ipoolLen fpoolLen : Nat) (fn : Func) : Prop :=
  fn.entry < fn.code.length ∧
  ∀ ins ∈ fn.code, insWf ipoolLen fpoolLen fn.code.length ins

instance (ipoolLen fpoolLen : Nat) (fn : Func) :
    Decidable (funcWf ipoolLen fpoolLen fn) := by
  unfold funcWf; infer_instance

/-- A rank function witnessing that the operand edges of `fn` form a DAG:
every operand has strictly smaller rank than its user. -/
def rankOk (fn : Func) (rank : Nat → Nat) : Prop :=
  ∀ i, i < fn.code.length →
    (1 ≤ (fn.code.getD i default).op.numInputs →
      rank (fn.code.getD i default).a < rank i) ∧
    (2 ≤ (fn.code.getD i default).op.numInputs →
      rank (fn.code.getD i default).b < rank i)

instance (fn : Func) (rank : Nat → Nat) : Decidable (rankOk fn rank) := by
  unfold rankOk; infer_instance

/-- No two distinct ids hold bitwise-equal `is_cse` instructions. -/
def NoDupCse (code : List Ins) : Prop :=
  ∀ (i j : Nat) (insi insj : Ins), i ≠ j → code[i]? = some insi → code[j]? = some insj →
    insi.op.is_cse → insj.op.is_cse → insi ≠ insj

/-- The CSE invariant maintained during a run: no duplicate `is_cse`
instructions, and every `is_cse` instruction in the new code is reachable
through the CSE map. -/
def CseInv (st : St) : Prop :=
  NoDupCse st.code ∧
  ∀ (i : Nat) (insi : Ins), st.code[i]? = some insi → insi.op.is_cse →
    ∃ idx, idx ∈ st.cse_map ∧ st.code[idx]? = some insi

/-- No `MOV` instruction occurs in the code. -/
def NoMov (code : List Ins) : Prop := ∀ ins ∈ code, ins.op ≠ .MOV

/-- The number of unset entries of `old_new` (the potential that bounds the
remaining work of the queue). -/
def countNone (l : List (Option Nat)) : Nat :=
  (l.filter (fun o => o.isNone)).length

/-- The queue potential: pending queue entries plus three per untranslated
source instruction.  Every queue iteration strictly decreases it. -/
def Pot (st : St) : Nat := st.next.length + 3 * countNone st.old_new

/-- Validity of one emitted instruction against the current state: constant
handles point into the pools, and every control slot names a source
instruction (of a function with `len` instructions) that is the currently
visited one (`ex`), pending in the queue, or already translated. -/
def insOk (len ex : Nat) (st : St) (ins : Ins) : Prop :=
  (ins.op = .KINT64 → ins.bc < st.ipool.length) ∧
  (ins.op = .KFP64 → ins.bc < st.fpool.length) ∧
  (∀ s ∈ ins.op.controlSlots, ins.getSlot s < len ∧
    (ins.getSlot s = ex ∨ ins.getSlot s ∈ st.next ∨
      ∃ v, st.old_new[ins.getSlot s]? = some (some v)))

/-- The totality invariant of the `visit` recursion, with `ex` the source id
currently being visited (popped from the queue but not yet recorded): the
scratch sizes line up with the source function, recorded ids and queue
entries are in bounds, the pools have only grown past their initial lengths,
every emitted instruction is valid, and the entry is pending or recorded. -/
def VisitInv (fn : Func) (ipl fpl ex : Nat) (st : St) : Prop :=
  st.old_new.length = fn.code.length ∧
  (∀ (i v : Nat), st.old_new[i]? = some (some v) → v < st.code.length) ∧
  (∀ id ∈ st.next, id < fn.code.length) ∧
  ipl ≤ st.ipool.length ∧ fpl ≤ st.fpool.length ∧
  (∀ ins ∈ st.code, insOk fn.code.length ex st ins) ∧
  (fn.entry = ex ∨ fn.entry ∈ st.next ∨ ∃ v, st.old_new[fn.entry]? = some (some v))

/-- Monotone extension between two states of a `visit` subtree: recorded ids
stay recorded, the code and pools only grow, and the queue is only
appended. -/
def StExt (st st' : St) : Prop :=
  st'.old_new.length = st.old_new.length ∧
  (∀ (i v : Nat), st.old_new[i]? = some (some v) → st'.old_new[i]? = some (some v)) ∧
  st.code.length ≤ st'.code.length ∧
  (∀ x ∈ st.next, x ∈ st'.next) ∧
  st.ipool.length ≤ st'.ipool.length ∧ st.fpool.length ≤ st'.fpool.length

/-! ## Concrete inputs used by the closed theorems below -/

/-- A state whose new code holds the constants 1 and 0 at ids 0 and 1. -/
def cexDivSt : St := ⟨[], [], [], [Ins.KINT .i64 1, Ins.KINT .i64 0], [], []⟩

/-- `DIV` of the constants at ids 0 and 1 (divisor 0). -/
def cexDivIns : Ins := ⟨.DIV, .i64, 0, 1, 0⟩

/-- A well-formed function computing `1 / 0` on constants: the constants 1
and 0, their `DIV`, and a `RET` of the quotient. -/
def cexDivOcx : Ocx :=
  ⟨[⟨[Ins.KINT .i64 1, Ins.KINT .i64 0, ⟨.DIV, .i64, 0, 1, 0⟩,
      ⟨.RET, .fx, 2, 0, 0⟩], 3⟩], [], []⟩

/-- A state whose new code holds the constants 2 and 3 at ids 0 and 1. -/
def wAddSt : St := ⟨[], [], [], [Ins.KINT .i32 2, Ins.KINT .i32 3], [], []⟩

/-- `ADD` of the constants at ids 0 and 1. -/
def wAddIns : Ins := ⟨.ADD, .i32, 0, 1, 0⟩

/-- The state for the C5 counterexample: `x` is a `KINT64` at id 0 whose
interned value 5 fits in an i32 (ids: 0 = `x`, 1 = `KINT 0`). -/
def cexIdSt : St := ⟨[], [], [], [Ins.KINT64 .i64 0, Ins.KINT .i64 0], [5], []⟩

/-- `ADD(x, KINT 0)` for the C5 counterexample. -/
def cexIdIns : Ins := ⟨.ADD, .i64, 0, 1, 0⟩

/-- A state holding a parameter and the constants 0 and 1 (ids 0, 1, 2). -/
def wIdSt : St :=
  ⟨[], [], [], [⟨.PARAM, .i32, 0, 0, 0⟩, Ins.KINT .i32 0, Ins.KINT .i32 1], [], []⟩

/-- A state with a constant at id 0 and a parameter at id 1. -/
def wSwapSt : St :=
  ⟨[], [], [], [Ins.KINT .i32 7, ⟨.PARAM, .i32, 0, 0, 0⟩], [], []⟩

/-- `ADD` of the constant at id 0 and the parameter at id 1. -/
def wSwapIns : Ins := ⟨.ADD, .i32, 0, 1, 0⟩

/-- A function containing a `MOV` of a parameter. -/
def wMovOcx : Ocx :=
  ⟨[⟨[⟨.PARAM, .i32, 0, 0, 0⟩, ⟨.MOV, .i32, 0, 0, 0⟩, Ins.KINT .i32 1,
      ⟨.ADD, .i32, 1, 2, 0⟩, ⟨.RET, .fx, 3, 0, 0⟩], 4⟩], [], []⟩

/-- The Fold output on `wMovOcx`: the `MOV` is gone. -/
def wMovOut : Ocx :=
  ⟨[⟨[⟨.PARAM, .i32, 0, 0, 0⟩, Ins.KINT .i32 1, ⟨.ADD, .i32, 0, 1, 0⟩,
      ⟨.RET, .fx, 2, 0, 0⟩], 3⟩], [], []⟩

/-- The function installed at id 0 by the run on `wMovOcx`. -/
def wMovFn : Func :=
  ⟨[⟨.PARAM, .i32, 0, 0, 0⟩, Ins.KINT .i32 1, ⟨.ADD, .i32, 0, 1, 0⟩,
    ⟨.RET, .fx, 2, 0, 0⟩], 3⟩

/-- A function computing `(p0 + p1) - (p0 + p1)` with the `ADD` duplicated. -/
def wCseOcx : Ocx :=
  ⟨[⟨[⟨.PARAM, .i32, 0, 0, 0⟩, ⟨.PARAM, .i32, 0, 1, 0⟩, ⟨.ADD, .i32, 0, 1, 0⟩,
      ⟨.ADD, .i32, 0, 1, 0⟩, ⟨.SUB, .i32, 2, 3, 0⟩, ⟨.RET, .fx, 4, 0, 0⟩], 5⟩],
    [], []⟩

/-- The Fold output on `wCseOcx`: one `ADD` remains. -/
def wCseOut : Ocx :=
  ⟨[⟨[⟨.PARAM, .i32, 0, 0, 0⟩, ⟨.PARAM, .i32, 0, 1, 0⟩, ⟨.ADD, .i32, 0, 1, 0⟩,
      ⟨.SUB, .i32, 2, 2, 0⟩, ⟨.RET, .fx, 3, 0, 0⟩], 4⟩], [], []⟩

/-- The function installed at id 0 by the run on `wCseOcx`. -/
def wCseFn : Func :=
  ⟨[⟨.PARAM, .i32, 0, 0, 0⟩, ⟨.PARAM, .i32, 0, 1, 0⟩, ⟨.ADD, .i32, 0, 1, 0⟩,
    ⟨.SUB, .i32, 2, 2, 0⟩, ⟨.RET, .fx, 3, 0, 0⟩], 4⟩

/-- A two-function IR. -/
def wFrameOcx : Ocx :=
  ⟨[⟨[Ins.KINT .i32 2, ⟨.RET, .fx, 0, 0, 0⟩], 1⟩,
    ⟨[Ins.KINT .i32 9, ⟨.RET, .fx, 0, 0, 0⟩], 1⟩], [], []⟩

/-- The Fold output on function 0 of `wFrameOcx`. -/
def wFrameOut : Ocx :=
  ⟨[⟨[Ins.KINT .i32 2, ⟨.RET, .fx, 0, 0, 0⟩], 1⟩,
    ⟨[Ins.KINT .i32 9, ⟨.RET, .fx, 0, 0, 0⟩], 1⟩], [], []⟩

/-- A two-instruction well-formed function returning the constant 2. -/
def wTotalFn : Func := ⟨[Ins.KINT .i32 2, ⟨.RET, .fx, 0, 0, 0⟩], 1⟩

/-- A one-function IR holding `wTotalFn` with empty pools. -/
def wTotalOcx : Ocx := ⟨[wTotalFn], [], []⟩

-- THEOREMS BELOW THIS LINE

/-! ## Basic lemmas -/

theorem ebind_ok {α β : Type} (a : α) (f : α → Except Panic β) :
    (Except.ok a >>= f) = f a := rfl

theorem ebind_err {α β : Type} (e : Panic) (f : α → Except Panic β) :
    ((Except.error e : Except Panic α) >>= f) = .error e := rfl

/-! ## C8: optimization flag parsing -/

theorem foldl_union_charFlag (bs : List UInt8) (init : Finset OptFlag) :
    bs.foldl (fun s b => s ∪ charFlag b) init = init ∪ specUnion bs := by
  induction bs generalizing init with
  | nil => simp [specUnion]
  | cons b rest ih =>
    simp only [List.foldl_cons, specUnion, List.foldr_cons, ih]
    rw [Finset.union_assoc]

theorem specUnion_ne_compl (bs : List UInt8) : specUnion bs ≠ (specUnion bs)ᶜ := by
  intro h
  by_cases hf : OptFlag.FOLD ∈ specUnion bs
  · have : OptFlag.FOLD ∈ (specUnion bs)ᶜ := h ▸ hf
    exact (Finset.mem_compl.mp this) hf
  · have : OptFlag.FOLD ∈ (specUnion bs)ᶜ := Finset.mem_compl.mpr hf
    exact hf (h ▸ this)

/-- C8: `parse_optflags` returns the union of the flag sets selected by the
input bytes (unknown bytes select nothing), and the final set is the
complement of that union exactly when the first byte is `-` (ASCII 45); in
particular the input `"-"` alone yields the set of all flags. -/
theorem parse_optflags_spec :
    (∀ bs : List UInt8,
      parse_optflags bs =
        (if bs.head? = some 45 then (specUnion bs)ᶜ else specUnion bs) ∧
      (parse_optflags bs = (specUnion bs)ᶜ ↔ bs.head? = some 45)) ∧
    parse_optflags [45] = Finset.univ := by
  constructor
  · intro bs
    have heq : parse_optflags bs =
        (if bs.head? = some 45 then (specUnion bs)ᶜ else specUnion bs) := by
      simp only [parse_optflags, foldl_union_charFlag, Finset.empty_union]
    refine ⟨heq, ?_⟩
    constructor
    · intro h
      by_contra hne
      rw [heq, if_neg hne] at h
      exact specUnion_ne_compl bs h
    · intro h
      rw [heq, if_pos h]
  · decide

/-! ## C9: language finish-emit aggregation -/

theorem resultAnd_assoc {ε : Type} (r1 r2 r3 : Except ε Unit) :
    resultAnd (resultAnd r1 r2) r3 = resultAnd r1 (resultAnd r2 r3) := by
  cases r1 <;> rfl

theorem resultAnd_firstError {ε : Type} (x : Except ε Unit) (l : List (Except ε Unit)) :
    resultAnd x (firstError l) = firstError (x :: l) := by
  cases x <;> rfl

theorem finish_foldl {ε : Type} (f : Lang → Except ε Unit) (ls : List Lang)
    (r : Except ε Unit) (t : List Lang) :
    ls.foldl (fun acc l => (resultAnd acc.1 (f l), acc.2 ++ [l])) (r, t) =
      (resultAnd r (firstError (ls.map f)), t ++ ls) := by
  induction ls generalizing r t with
  | nil =>
    simp only [List.foldl_nil, List.map_nil, List.append_nil]
    cases r <;> rfl
  | cons l rest ih =>
    simp only [List.foldl_cons, ih, List.map_cons]
    rw [resultAnd_assoc, resultAnd_firstError]
    simp

theorem mem_langOrder (l : Lang) : l ∈ langOrder := by cases l <;> decide

theorem langList_nodup (present : Finset Lang) : (langList present).Nodup := by
  have : langOrder.Nodup := by decide
  exact this.filter _

/-- C9: `LangState::finish` invokes `finish_emit` once for every present
language, in enumeration order (the invocation trace is exactly the ordered
list of present languages, each once), regardless of earlier errors, and
returns the first error of the outcomes, or `Ok` when all succeed. -/
theorem langstate_finish_spec (ε : Type) (present : Finset Lang)
    (f : Lang → Except ε Unit) :
    (LangState.finish present f).2 = langList present ∧
    (∀ l : Lang, (LangState.finish present f).2.count l =
      if l ∈ present then 1 else 0) ∧
    (LangState.finish present f).1 = firstError ((langList present).map f) := by
  have h : LangState.finish present f =
      (firstError ((langList present).map f), langList present) := by
    unfold LangState.finish
    rw [finish_foldl]
    simp only [List.nil_append]
    congr 1
  refine ⟨by rw [h], ?_, by rw [h]⟩
  intro l
  rw [h]
  by_cases hmem : l ∈ present
  · simp only [hmem, if_true]
    refine List.count_eq_one_of_mem (langList_nodup present) ?_
    simp only [langList, List.mem_filter]
    exact ⟨mem_langOrder l, by simpa using hmem⟩
  · simp only [hmem, if_false]
    refine List.count_eq_zero_of_not_mem ?_
    simp only [langList, List.mem_filter]
    intro hc
    exact hmem (by simpa using hc.2)

/-! ## C6: the optimizer driver fixed-point loop -/

theorem driverLoop_spec {σ : Type} (step : σ → σ) (view : σ → List Func) :
    ∀ (n : Nat) (s : σ), ∃ k,
      driverLoop step view n (irsize (view s)) s = (step^[k] s, k) ∧ k ≤ n ∧
      (∀ m, 1 ≤ m → m < k →
        irsize (view (step^[m] s)) ≠ irsize (view (step^[m - 1] s))) ∧
      (k < n → 1 ≤ k ∧
        irsize (view (step^[k] s)) = irsize (view (step^[k - 1] s))) := by
  intro n
  induction n with
  | zero =>
    intro s
    exact ⟨0, rfl, Nat.le_refl 0, fun m h1 h2 => absurd h2 (by omega),
      fun h => absurd h (by omega)⟩
  | succ n ih =>
    intro s
    have hstep : driverLoop step view (n + 1) (irsize (view s)) s =
        if irsize (view s) = irsize (view (step s)) then (step s, 1)
        else match driverLoop step view n (irsize (view (step s))) (step s) with
          | (r, k) => (r, k + 1) := rfl
    by_cases hconv : irsize (view s) = irsize (view (step s))
    · refine ⟨1, ?_, by omega, fun m h1 h2 => absurd h2 (by omega),
        fun _ => ⟨Nat.le_refl 1, ?_⟩⟩
      · rw [hstep, if_pos hconv]
        simp
      · simpa using hconv.symm
    · obtain ⟨k, hdl, hk, hmin, hstop⟩ := ih (step s)
      refine ⟨k + 1, ?_, by omega, ?_, ?_⟩
      · rw [hstep, if_neg hconv, hdl]
        simp [Function.iterate_succ_apply]
      · intro m h1 h2
        rcases Nat.lt_or_ge m 2 with h | h
        · have hm : m = 1 := by omega
          subst hm
          simpa using fun hc => hconv hc.symm
        · have h1' : 1 ≤ m - 1 := by omega
          have h2' : m - 1 < k := by omega
          have hne := hmin (m - 1) h1' h2'
          rw [← Function.iterate_succ_apply step (m - 1) s,
              ← Function.iterate_succ_apply step (m - 1 - 1) s] at hne
          simp only [Nat.succ_eq_add_one] at hne
          have e1 : m - 1 + 1 = m := by omega
          have e2 : m - 1 - 1 + 1 = m - 1 := by omega
          rwa [e1, e2] at hne
      · intro hk'
        obtain ⟨h1, heq⟩ := hstop (by omega)
        refine ⟨by omega, ?_⟩
        rw [← Function.iterate_succ_apply step k s,
            ← Function.iterate_succ_apply step (k - 1) s] at heq
        simp only [Nat.succ_eq_add_one] at heq
        have e2 : k - 1 + 1 = k := by omega
        rw [e2] at heq
        simpa using heq

/-- C6: the optimizer driver performs at most `MAX_ITER = 100` outer
iterations, stops at the first iteration whose IR-size metric (`irsize`)
equals the previous one (never earlier, never later), and returns `Ok` even
when the cap is reached without a fixpoint. -/
theorem optimize_run_bounded (σ : Type) (step : σ → σ) (view : σ → List Func)
    (s : σ) : ∃ k,
    Optimize.run step view s = (.ok (step^[k] s), k) ∧ k ≤ MAX_ITER ∧
    (∀ m, 1 ≤ m → m < k →
      irsize (view (step^[m] s)) ≠ irsize (view (step^[m - 1] s))) ∧
    (k < MAX_ITER → 1 ≤ k ∧
      irsize (view (step^[k] s)) = irsize (view (step^[k - 1] s))) := by
  obtain ⟨k, hdl, hk, hmin, hstop⟩ := driverLoop_spec step view MAX_ITER s
  exact ⟨k, by simp only [Optimize.run, hdl], hk, hmin, hstop⟩


/-! ## Arithmetic and constant-construction lemmas -/

theorem tdiv_range (l r : Int) (hl1 : -(2 ^ 63) ≤ l) (hl2 : l < 2 ^ 63)
    (hr0 : r ≠ 0) (hno : ¬(l = -(2 ^ 63) ∧ r = -1)) :
    -(2 ^ 63) ≤ Int.tdiv l r ∧ Int.tdiv l r < 2 ^ 63 := by
  rcases eq_or_ne r 1 with rfl | hrone
  · rw [Int.tdiv_one]; exact ⟨hl1, hl2⟩
  rcases eq_or_ne r (-1) with rfl | hrm
  · have h : Int.tdiv l (-1) = -l := by simp
    rw [h]; omega
  · have h2 : 2 ≤ r.natAbs := by omega
    have hla : l.natAbs ≤ 2 ^ 63 := by omega
    have hb : (Int.tdiv l r).natAbs = l.natAbs / r.natAbs := Int.natAbs_tdiv l r
    have hc : l.natAbs / r.natAbs ≤ l.natAbs / 2 := Nat.div_le_div_left h2 (by norm_num)
    have hd : l.natAbs / 2 ≤ 2 ^ 63 / 2 := Nat.div_le_div_right hla
    have he : (2 : Nat) ^ 63 / 2 = 2 ^ 62 := by norm_num
    omega

theorem toU64_lt (v : Int) : toU64 v < 2 ^ 64 := by
  unfold toU64; omega

theorem ofU64_range (n : Nat) (h : n < 2 ^ 64) :
    -(2 ^ 63) ≤ ofU64 n ∧ ofU64 n < 2 ^ 63 := by
  unfold ofU64; split <;> omega

theorem wrap64_eq (v : Int) (h1 : -(2 ^ 63) ≤ v) (h2 : v < 2 ^ 63) : wrap64 v = v := by
  unfold wrap64 toU64 ofU64
  split <;> omega

theorem toU64_eq_zero (v : Int) (h1 : -(2 ^ 63) ≤ v) (h2 : v < 2 ^ 63) :
    toU64 v = 0 ↔ v = 0 := by
  unfold toU64; omega

theorem fitsI32_iff (v : Int) : fitsI32 v = true ↔ -(2 ^ 31) ≤ v ∧ v < 2 ^ 31 := by
  simp [fitsI32]

theorem sx32_toU32 (v : Int) (h1 : -(2 ^ 31) ≤ v) (h2 : v < 2 ^ 31) :
    sx32 (toU32 v) = v := by
  unfold sx32 toU32
  split <;> omega

theorem bc_KINT (ty : Ty) (imm : Nat) : (Ins.KINT ty imm).bc = imm := by
  simp [Ins.KINT, Ins.bc]; omega

theorem bc_KINT64 (ty : Ty) (h : Nat) : (Ins.KINT64 ty h).bc = h := by
  simp [Ins.KINT64, Ins.bc]; omega

theorem kintvalue_KINT (ip : List Int) (fp : List Float) (ty : Ty) (imm : Nat) :
    kintvalue ip fp (Ins.KINT ty imm) = .ok (sx32 imm) := by
  have e : kintvalue ip fp (Ins.KINT ty imm) = .ok (sx32 (Ins.KINT ty imm).bc) := rfl
  rw [e, bc_KINT]

theorem kintvalue_KINT64 (ip : List Int) (fp : List Float) (ty : Ty) (h : Nat)
    (v : Int) (hget : ip[h]? = some v) :
    kintvalue ip fp (Ins.KINT64 ty h) = .ok v := by
  have e : kintvalue ip fp (Ins.KINT64 ty h) =
      (match ip[(Ins.KINT64 ty h).bc]? with
       | some v => .ok v
       | none => .error .oob) := rfl
  rw [e, bc_KINT64, hget]

theorem internInt_get (pool : List Int) (v : Int) :
    (internInt pool v).2[(internInt pool v).1]? = some v := by
  induction pool with
  | nil => rfl
  | cons x rest ih =>
    by_cases h : x = v
    · simp [internInt, h]
    · simp only [internInt, if_neg h]
      cases he : internInt rest v with
      | mk i rest' =>
        simp only [List.getElem?_cons_succ]
        rw [he] at ih
        exact ih

theorem internInt_ext (pool : List Int) (v : Int) :
    ∀ (i : Nat) (x : Int), pool[i]? = some x → (internInt pool v).2[i]? = some x := by
  induction pool with
  | nil => intro i x h; simp at h
  | cons y rest ih =>
    intro i x h
    by_cases hy : y = v
    · simpa [internInt, hy] using h
    · simp only [internInt, if_neg hy]
      cases he : internInt rest v with
      | mk j rest' =>
        cases i with
        | zero => simpa using h
        | succ i =>
          simp only [List.getElem?_cons_succ] at h ⊢
          rw [he] at ih
          exact ih i x h

theorem internInt_len (pool : List Int) (v : Int) :
    pool.length ≤ (internInt pool v).2.length := by
  induction pool with
  | nil => simp [internInt]
  | cons y rest ih =>
    by_cases hy : y = v
    · simp [internInt, hy]
    · simp only [internInt, if_neg hy]
      cases he : internInt rest v with
      | mk j rest' =>
        rw [he] at ih
        simpa using ih

theorem newkint_spec (pool : List Int) (fp : List Float) (ty : Ty) (v : Int) :
    (newkint pool ty v).1.op.is_const = true ∧
    kintvalue (newkint pool ty v).2 fp (newkint pool ty v).1 = .ok v := by
  unfold newkint
  by_cases hf : fitsI32 v
  · obtain ⟨hf1, hf2⟩ := (fitsI32_iff v).mp hf
    simp only [hf, if_true]
    exact ⟨rfl, by rw [kintvalue_KINT, sx32_toU32 v hf1 hf2]⟩
  · simp only [hf, Bool.false_eq_true, if_false]
    cases he : internInt pool v with
    | mk h pool' =>
      refine ⟨rfl, ?_⟩
      apply kintvalue_KINT64
      have := internInt_get pool v
      rw [he] at this
      exact this

/-! ## Unfolding lemmas for `fold` -/

theorem isConstAt_eq (code : List Ins) (v : Nat) (ins : Ins)
    (h : code[v]? = some ins) : isConstAt code v = .ok ins.op.is_const := by
  unfold isConstAt
  rw [h]

theorem isKintAt_eq (code : List Ins) (v : Nat) (ins : Ins) (k : Nat)
    (h : code[v]? = some ins) :
    isKintAt code v k = .ok (ins.op == .KINT && ins.bc == k) := by
  unfold isKintAt
  rw [h]

theorem fold_eq_constFold (st : St) (ins : Ins) (left right : Ins)
    (hop : ins.op = .ADD ∨ ins.op = .SUB ∨ ins.op = .MUL ∨ ins.op = .DIV ∨
      ins.op = .UDIV ∨ ins.op = .POW)
    (hl : st.code[ins.a]? = some left) (hr : st.code[ins.b]? = some right)
    (hlc : left.op.is_const = true) (hrc : right.op.is_const = true) :
    fold st ins = constFold st ins := by
  have ha := isConstAt_eq st.code ins.a left hl
  have hb := isConstAt_eq st.code ins.b right hr
  unfold fold
  rcases hop with h | h | h | h | h | h <;> rw [h] <;>
    rw [ha, hb] <;> simp only [ebind_ok] <;> simp [hlc, hrc]

theorem constFold_int (st : St) (ins : Ins) (left right : Ins) (lv rv v : Int)
    (k : Ins) (ipool' : List Int)
    (hty : ins.ty = .i8 ∨ ins.ty = .i16 ∨ ins.ty = .i32 ∨ ins.ty = .i64)
    (hl : st.code[ins.a]? = some left) (hr : st.code[ins.b]? = some right)
    (hlv : kintvalue st.ipool st.fpool left = .ok lv)
    (hrv : kintvalue st.ipool st.fpool right = .ok rv)
    (hfold : foldintarith ins.op lv rv = .ok v)
    (hnk : newkint st.ipool ins.ty v = (k, ipool')) :
    constFold st ins = .ok (.Done k, { st with ipool := ipool' }) := by
  have hnf : ¬(ins.ty = .f32 ∨ ins.ty = .f64) := by
    rcases hty with h | h | h | h <;> rw [h] <;> simp
  simp only [constFold, hl, hr]
  rw [if_neg hnf]
  rw [hlv, hrv]
  simp only [ebind_ok]
  rw [hfold]
  simp only [ebind_ok]
  rw [hnk]

/-! ## C1: constant integer arithmetic folding -/

/-- C1 counterexample: for `DIV` with constant operands 1 and 0 (matching
integer type `i64`), the pass does not replace the instruction with a
constant at all: the fold faults with a division panic. -/
theorem fold_div_zero_cex : fold cexDivSt cexDivIns = .error .divFault := rfl

/-- C1 (amended): for every opcode in {ADD, SUB, MUL, DIV, UDIV} applied to
two constant operands of a matching integer type whose 64-bit values make
the division defined (nonzero divisor for DIV and UDIV, and not
`i64::MIN / -1` for DIV), `fold` replaces the instruction by a constant
whose 64-bit value equals the reference arithmetic on the operand values:
two's-complement 64-bit wrapping for ADD, SUB, MUL, DIV, and unsigned
64-bit division for UDIV.  With a zero divisor the pass faults instead
(see the counterexample). -/
theorem fold_const_intarith (st : St) (ins : Ins) (left right : Ins) (lv rv : Int)
    (hop : ins.op = .ADD ∨ ins.op = .SUB ∨ ins.op = .MUL ∨ ins.op = .DIV ∨
      ins.op = .UDIV)
    (hty : ins.ty = .i8 ∨ ins.ty = .i16 ∨ ins.ty = .i32 ∨ ins.ty = .i64)
    (hl : st.code[ins.a]? = some left) (hr : st.code[ins.b]? = some right)
    (hlc : left.op.is_const = true) (hrc : right.op.is_const = true)
    (hlv : kintvalue st.ipool st.fpool left = .ok lv)
    (hrv : kintvalue st.ipool st.fpool right = .ok rv)
    (hlr1 : -(2 ^ 63) ≤ lv) (hlr2 : lv < 2 ^ 63)
    (hrr1 : -(2 ^ 63) ≤ rv) (hrr2 : rv < 2 ^ 63)
    (hdiv : ins.op = .DIV → rv ≠ 0 ∧ ¬(lv = -(2 ^ 63) ∧ rv = -1))
    (hudiv : ins.op = .UDIV → rv ≠ 0) :
    ∃ k ipool', fold st ins = .ok (.Done k, { st with ipool := ipool' }) ∧
      k.op.is_const = true ∧
      kintvalue ipool' st.fpool k = .ok (refIntArith ins.op lv rv) := by
  have hop6 : ins.op = .ADD ∨ ins.op = .SUB ∨ ins.op = .MUL ∨ ins.op = .DIV ∨
      ins.op = .UDIV ∨ ins.op = .POW := by
    rcases hop with h | h | h | h | h
    exacts [Or.inl h, Or.inr (Or.inl h), Or.inr (Or.inr (Or.inl h)),
      Or.inr (Or.inr (Or.inr (Or.inl h))),
      Or.inr (Or.inr (Or.inr (Or.inr (Or.inl h))))]
  have hfc : fold st ins = constFold st ins :=
    fold_eq_constFold st ins left right hop6 hl hr hlc hrc
  have hfold : foldintarith ins.op lv rv = .ok (refIntArith ins.op lv rv) := by
    rcases hop with h | h | h | h | h <;> rw [h] <;> unfold foldintarith refIntArith
    · rfl
    · rfl
    · rfl
    · obtain ⟨h0, hno⟩ := hdiv h
      have hcond : ¬(rv = 0 ∨ lv = -(2 ^ 63) ∧ rv = -1) := by
        intro hc
        rcases hc with hc | hc
        · exact h0 hc
        · exact hno hc
      simp only [decide_eq_true_eq]
      rw [if_neg (by simpa using hcond)]
      obtain ⟨d1, d2⟩ := tdiv_range lv rv hlr1 hlr2 h0 hno
      rw [wrap64_eq _ d1 d2]
    · have h0 := hudiv h
      have : toU64 rv ≠ 0 := fun hc => h0 ((toU64_eq_zero rv hrr1 hrr2).mp hc)
      rw [if_neg this]
  cases hnk : newkint st.ipool ins.ty (refIntArith ins.op lv rv) with
  | mk k ipool' =>
    have hcf := constFold_int st ins left right lv rv (refIntArith ins.op lv rv)
      k ipool' hty hl hr hlv hrv hfold hnk
    obtain ⟨hc, hv⟩ := newkint_spec st.ipool st.fpool ins.ty (refIntArith ins.op lv rv)
    rw [hnk] at hc hv
    exact ⟨k, ipool', by rw [hfc, hcf], hc, hv⟩

/-- C1 witness: `ADD` of the i32 constants 2 and 3 folds to a constant of
value 5 = refIntArith ADD 2 3. -/
theorem fold_const_intarith_witness :
    ∃ k ipool', fold wAddSt wAddIns = .ok (.Done k, { wAddSt with ipool := ipool' }) ∧
      k.op.is_const = true ∧
      kintvalue ipool' wAddSt.fpool k = .ok (refIntArith wAddIns.op 2 3) :=
  fold_const_intarith wAddSt wAddIns (Ins.KINT .i32 2) (Ins.KINT .i32 3) 2 3
    (Or.inl rfl) (Or.inr (Or.inr (Or.inl rfl))) rfl rfl rfl rfl
    (by rw [kintvalue_KINT]; rfl) (by rw [kintvalue_KINT]; rfl)
    (by decide) (by decide) (by decide) (by decide)
    (fun h => by simp [wAddIns] at h) (fun h => by simp [wAddIns] at h)


/-! ## C4 and C5: canonicalization and identities of `fold` -/


theorem not_const_ne_kint (o : Opcode) (h : o.is_const = false) :
    (o == Opcode.KINT) = false := by
  cases o <;> simp_all [Opcode.is_const]

theorem foldSteps_succ_done (st : St) (ins i : Ins) (st' : St) (fuel : Nat)
    (h : fold st ins = .ok (.Done i, st')) :
    foldSteps (fuel + 1) st ins = .ok (.Done i, st') := by
  conv_lhs => rw [foldSteps]
  rw [h]
  rfl

theorem foldSteps_succ_new (st : St) (ins : Ins) (n : Nat) (st' : St) (fuel : Nat)
    (h : fold st ins = .ok (.New n, st')) :
    foldSteps (fuel + 1) st ins = .ok (.New n, st') := by
  conv_lhs => rw [foldSteps]
  rw [h]
  rfl

theorem foldSteps_succ_again (st : St) (ins ins1 : Ins) (st1 : St) (fuel : Nat)
    (h : fold st ins = .ok (.Again ins1, st1)) :
    foldSteps (fuel + 1) st ins = foldSteps fuel st1 ins1 := by
  conv_lhs => rw [foldSteps]
  rw [h]
  rfl

theorem foldSteps_mono (fuel fuel' : Nat) (st : St) (ins : Ins) (r : FoldRes × St)
    (h : foldSteps fuel st ins = .ok r) (hle : fuel ≤ fuel') :
    foldSteps fuel' st ins = .ok r := by
  induction fuel generalizing fuel' st ins with
  | zero => simp [foldSteps] at h
  | succ n ih =>
    cases fuel' with
    | zero => omega
    | succ m =>
      cases hf : fold st ins with
      | error e =>
        rw [show foldSteps (n + 1) st ins = .error e by
          conv_lhs => rw [foldSteps]
          rw [hf]
          rfl] at h
        exact absurd h (by simp)
      | ok p =>
        obtain ⟨status, st1⟩ := p
        cases status with
        | Again ins' =>
          rw [foldSteps_succ_again st ins ins' st1 n hf] at h
          rw [foldSteps_succ_again st ins ins' st1 m hf]
          exact ih _ _ _ h (by omega)
        | Done i =>
          rw [foldSteps_succ_done st ins i st1 n hf] at h
          rw [foldSteps_succ_done st ins i st1 m hf]
          exact h
        | New nid =>
          rw [foldSteps_succ_new st ins nid st1 n hf] at h
          rw [foldSteps_succ_new st ins nid st1 m hf]
          exact h

theorem fold_addmul_canonical (st : St) (ins : Ins) (A B : Ins)
    (hop : ins.op = .ADD ∨ ins.op = .MUL)
    (ha : st.code[ins.a]? = some A) (hb : st.code[ins.b]? = some B)
    (hnc : ¬(A.op.is_const = true ∧ B.op.is_const = true)) :
    ∃ r st', foldSteps 2 st ins = .ok (r, st') ∧
      (∀ fuel, 2 ≤ fuel → foldSteps fuel st ins = .ok (r, st')) ∧
      (∀ ins', r = .Done ins' → (ins'.op = .ADD ∨ ins'.op = .MUL) →
        ∃ A' B', st'.code[ins'.a]? = some A' ∧ st'.code[ins'.b]? = some B' ∧
          (A'.op.is_const = true → B'.op.is_const = true) ∧
          (A'.op.is_const = false → B'.op.is_const = false → ins'.a ≤ ins'.b)) := by
  suffices hs : ∃ r st', foldSteps 2 st ins = .ok (r, st') ∧
      (∀ ins', r = .Done ins' → (ins'.op = .ADD ∨ ins'.op = .MUL) →
        ∃ A' B', st'.code[ins'.a]? = some A' ∧ st'.code[ins'.b]? = some B' ∧
          (A'.op.is_const = true → B'.op.is_const = true) ∧
          (A'.op.is_const = false → B'.op.is_const = false → ins'.a ≤ ins'.b)) by
    obtain ⟨r, st', h2, hprop⟩ := hs
    exact ⟨r, st', h2, fun fuel hf => foldSteps_mono 2 fuel st ins (r, st') h2 hf, hprop⟩
  have ha1 : st.code[(swap01 ins).a]? = some B := hb
  have hb1 : st.code[(swap01 ins).b]? = some A := ha
  by_cases hca : A.op.is_const = true
  · -- left operand constant: one swap, then done
    have hcb : B.op.is_const = false := by
      cases hcbv : B.op.is_const
      · rfl
      · exact absurd ⟨hca, hcbv⟩ hnc
    have h1 : fold st ins = .ok (.Again (swap01 ins), st) := by
      rcases hop with h | h
      · unfold fold
        rw [h, isConstAt_eq _ _ _ ha, isConstAt_eq _ _ _ hb]
        simp [ebind_ok, hca, hcb]
      · unfold fold
        rw [h, isConstAt_eq _ _ _ ha, isConstAt_eq _ _ _ hb]
        simp [ebind_ok, hca, hcb]
    rw [foldSteps_succ_again st ins (swap01 ins) st 1 h1]
    rcases hop with h | h
    · -- ADD
      have hop1 : (swap01 ins).op = .ADD := h
      by_cases hz : (A.op == Opcode.KINT && A.bc == 0) = true
      · have h2 : fold st (swap01 ins) = .ok (.New (swap01 ins).a, st) := by
          unfold fold
          rw [hop1, isConstAt_eq _ _ _ ha1, isConstAt_eq _ _ _ hb1,
            isKintAt_eq st.code (swap01 ins).b A 0 hb1]
          simp [ebind_ok, hca, hcb, hz]
        rw [foldSteps_succ_new _ _ _ _ 0 h2]
        exact ⟨_, st, rfl, fun ins' hd => by simp at hd⟩
      · have h2 : fold st (swap01 ins) = .ok (.Done (swap01 ins), st) := by
          unfold fold
          rw [hop1, isConstAt_eq _ _ _ ha1, isConstAt_eq _ _ _ hb1,
            isKintAt_eq st.code (swap01 ins).b A 0 hb1]
          simp [ebind_ok, hca, hcb, hz]
        rw [foldSteps_succ_done _ _ _ _ 0 h2]
        refine ⟨_, st, rfl, fun ins' hd _ => ?_⟩
        obtain rfl : swap01 ins = ins' := by
          injection hd
        refine ⟨B, A, ha1, hb1, fun hBc => ?_, fun _ hAc => ?_⟩
        · exact absurd hBc (by simp [hcb])
        · exact absurd hAc (by simp [hca])
    · -- MUL
      have hop1 : (swap01 ins).op = .MUL := h
      by_cases hz1 : (A.op == Opcode.KINT && A.bc == 1) = true
      · have h2 : fold st (swap01 ins) = .ok (.New (swap01 ins).a, st) := by
          unfold fold
          rw [hop1, isConstAt_eq _ _ _ ha1, isConstAt_eq _ _ _ hb1,
            isKintAt_eq st.code (swap01 ins).b A 1 hb1]
          simp [ebind_ok, hca, hcb, hz1]
        rw [foldSteps_succ_new _ _ _ _ 0 h2]
        exact ⟨_, st, rfl, fun ins' hd => by simp at hd⟩
      · by_cases hz0 : (A.op == Opcode.KINT && A.bc == 0) = true
        · have h2 : fold st (swap01 ins) =
              .ok (.Done (Ins.KINT (swap01 ins).ty 0), st) := by
            unfold fold
            rw [hop1, isConstAt_eq _ _ _ ha1, isConstAt_eq _ _ _ hb1,
              isKintAt_eq st.code (swap01 ins).b A 1 hb1,
              isKintAt_eq st.code (swap01 ins).b A 0 hb1]
            simp [ebind_ok, hca, hcb, hz1, hz0]
          rw [foldSteps_succ_done _ _ _ _ 0 h2]
          refine ⟨_, st, rfl, fun ins' hd hops => ?_⟩
          obtain rfl : Ins.KINT (swap01 ins).ty 0 = ins' := by
            injection hd
          simp [Ins.KINT] at hops
        · have h2 : fold st (swap01 ins) = .ok (.Done (swap01 ins), st) := by
            unfold fold
            rw [hop1, isConstAt_eq _ _ _ ha1, isConstAt_eq _ _ _ hb1,
              isKintAt_eq st.code (swap01 ins).b A 1 hb1,
              isKintAt_eq st.code (swap01 ins).b A 0 hb1]
            simp [ebind_ok, hca, hcb, hz1, hz0]
          rw [foldSteps_succ_done _ _ _ _ 0 h2]
          refine ⟨_, st, rfl, fun ins' hd _ => ?_⟩
          obtain rfl : swap01 ins = ins' := by
            injection hd
          refine ⟨B, A, ha1, hb1, fun hBc => ?_, fun _ hAc => ?_⟩
          · exact absurd hBc (by simp [hcb])
          · exact absurd hAc (by simp [hca])
  · -- left operand not constant
    have hcaf : A.op.is_const = false := by
      cases hcav : A.op.is_const
      · rfl
      · exact absurd hcav hca
    have hAk : (A.op == Opcode.KINT) = false := not_const_ne_kint A.op hcaf
    by_cases hsw : ins.b < ins.a ∧ B.op.is_const = false
    · -- swap to sort ids, then done unchanged
      have h1 : fold st ins = .ok (.Again (swap01 ins), st) := by
        rcases hop with h | h
        · unfold fold
          rw [h, isConstAt_eq _ _ _ ha, isConstAt_eq _ _ _ hb]
          simp [ebind_ok, hcaf, hsw.1, hsw.2]
        · unfold fold
          rw [h, isConstAt_eq _ _ _ ha, isConstAt_eq _ _ _ hb]
          simp [ebind_ok, hcaf, hsw.1, hsw.2]
      rw [foldSteps_succ_again st ins (swap01 ins) st 1 h1]
      have hble : (swap01 ins).a ≤ (swap01 ins).b := by
        show ins.b ≤ ins.a
        omega
      have hlt : ¬((swap01 ins).b < (swap01 ins).a) := by
        show ¬(ins.a < ins.b)
        omega
      have h2 : fold st (swap01 ins) = .ok (.Done (swap01 ins), st) := by
        rcases hop with h | h
        · unfold fold
          rw [show (swap01 ins).op = Opcode.ADD from h, isConstAt_eq _ _ _ ha1,
            isConstAt_eq _ _ _ hb1, isKintAt_eq st.code (swap01 ins).b A 0 hb1]
          simp [ebind_ok, hsw.2, hcaf, hAk, hlt]
        · unfold fold
          rw [show (swap01 ins).op = Opcode.MUL from h, isConstAt_eq _ _ _ ha1,
            isConstAt_eq _ _ _ hb1, isKintAt_eq st.code (swap01 ins).b A 1 hb1,
            isKintAt_eq st.code (swap01 ins).b A 0 hb1]
          simp [ebind_ok, hsw.2, hcaf, hAk, hlt]
      rw [foldSteps_succ_done _ _ _ _ 0 h2]
      refine ⟨_, st, rfl, fun ins' hd _ => ?_⟩
      obtain rfl : swap01 ins = ins' := by
        injection hd
      exact ⟨B, A, ha1, hb1, fun hBc => absurd hBc (by simp [hsw.2]), fun _ _ => hble⟩
    · -- no swap at all
      have hg2 : ¬(A.op.is_const = true ∨ ins.b < ins.a ∧ B.op.is_const = false) := by
        intro hc
        rcases hc with hc | hc
        · exact hca hc
        · exact hsw hc
      by_cases hcb : B.op.is_const = true
      · -- right operand constant, left not: already canonical
        have hBk0 : ((B.op == Opcode.KINT && B.bc == 0) = true) ∨
            ((B.op == Opcode.KINT && B.bc == 0) = false) := by
          cases (B.op == Opcode.KINT && B.bc == 0)
          · exact Or.inr rfl
          · exact Or.inl rfl
        rcases hop with h | h
        · -- ADD: either New (b is KINT 0) or Done unchanged
          rcases hBk0 with hz | hz
          · have h1 : fold st ins = .ok (.New ins.a, st) := by
              unfold fold
              rw [h, isConstAt_eq _ _ _ ha, isConstAt_eq _ _ _ hb,
                isKintAt_eq st.code ins.b B 0 hb]
              simp [ebind_ok, hcaf, hcb, hz]
            rw [foldSteps_succ_new _ _ _ _ 1 h1]
            exact ⟨_, st, rfl, fun ins' hd => by simp at hd⟩
          · have h1 : fold st ins = .ok (.Done ins, st) := by
              unfold fold
              rw [h, isConstAt_eq _ _ _ ha, isConstAt_eq _ _ _ hb,
                isKintAt_eq st.code ins.b B 0 hb]
              simp [ebind_ok, hcaf, hcb, hz]
            rw [foldSteps_succ_done _ _ _ _ 1 h1]
            refine ⟨_, st, rfl, fun ins' hd _ => ?_⟩
            obtain rfl : ins = ins' := by
              injection hd
            exact ⟨A, B, ha, hb, fun hAc => absurd hAc (by simp [hcaf]),
              fun _ hBc => absurd hBc (by simp [hcb])⟩
        · -- MUL
          by_cases hz1 : (B.op == Opcode.KINT && B.bc == 1) = true
          · have h1 : fold st ins = .ok (.New ins.a, st) := by
              unfold fold
              rw [h, isConstAt_eq _ _ _ ha, isConstAt_eq _ _ _ hb,
                isKintAt_eq st.code ins.b B 1 hb]
              simp [ebind_ok, hcaf, hcb, hz1]
            rw [foldSteps_succ_new _ _ _ _ 1 h1]
            exact ⟨_, st, rfl, fun ins' hd => by simp at hd⟩
          · rcases hBk0 with hz | hz
            · have h1 : fold st ins = .ok (.Done (Ins.KINT ins.ty 0), st) := by
                unfold fold
                rw [h, isConstAt_eq _ _ _ ha, isConstAt_eq _ _ _ hb,
                  isKintAt_eq st.code ins.b B 1 hb, isKintAt_eq st.code ins.b B 0 hb]
                simp [ebind_ok, hcaf, hcb, hz1, hz]
              rw [foldSteps_succ_done _ _ _ _ 1 h1]
              refine ⟨_, st, rfl, fun ins' hd hops => ?_⟩
              obtain rfl : Ins.KINT ins.ty 0 = ins' := by
                injection hd
              simp [Ins.KINT] at hops
            · have h1 : fold st ins = .ok (.Done ins, st) := by
                unfold fold
                rw [h, isConstAt_eq _ _ _ ha, isConstAt_eq _ _ _ hb,
                  isKintAt_eq st.code ins.b B 1 hb, isKintAt_eq st.code ins.b B 0 hb]
                simp [ebind_ok, hcaf, hcb, hz1, hz]
              rw [foldSteps_succ_done _ _ _ _ 1 h1]
              refine ⟨_, st, rfl, fun ins' hd _ => ?_⟩
              obtain rfl : ins = ins' := by
                injection hd
              exact ⟨A, B, ha, hb, fun hAc => absurd hAc (by simp [hcaf]),
                fun _ hBc => absurd hBc (by simp [hcb])⟩
      · -- both operands non-constant, ids already sorted
        have hcbf : B.op.is_const = false := by
          cases hcbv : B.op.is_const
          · rfl
          · exact absurd hcbv hcb
        have hble : ins.a ≤ ins.b := by
          by_contra hgt
          exact hsw ⟨by omega, hcbf⟩
        have hBk : (B.op == Opcode.KINT) = false := not_const_ne_kint B.op hcbf
        have hnlt : ¬(ins.b < ins.a) := fun hlt => hsw ⟨hlt, hcbf⟩
        have h1 : fold st ins = .ok (.Done ins, st) := by
          rcases hop with h | h
          · unfold fold
            rw [h, isConstAt_eq _ _ _ ha, isConstAt_eq _ _ _ hb,
              isKintAt_eq st.code ins.b B 0 hb]
            simp [ebind_ok, hcaf, hcbf, hBk, hnlt]
          · unfold fold
            rw [h, isConstAt_eq _ _ _ ha, isConstAt_eq _ _ _ hb,
              isKintAt_eq st.code ins.b B 1 hb, isKintAt_eq st.code ins.b B 0 hb]
            simp [ebind_ok, hcaf, hcbf, hBk, hnlt]
        rw [foldSteps_succ_done _ _ _ _ 1 h1]
        refine ⟨_, st, rfl, fun ins' hd _ => ?_⟩
        obtain rfl : ins = ins' := by
          injection hd
        exact ⟨A, B, ha, hb, fun hAc => absurd hAc (by simp [hcaf]), fun _ _ => hble⟩


/-- C4 witness: `ADD (KINT 7) PARAM` reaches a fixed point of the fold loop
within two steps and ends canonically ordered. -/
theorem fold_addmul_canonical_witness :
    ∃ r st', foldSteps 2 wSwapSt wSwapIns = .ok (r, st') ∧
      (∀ fuel, 2 ≤ fuel → foldSteps fuel wSwapSt wSwapIns = .ok (r, st')) ∧
      (∀ ins', r = .Done ins' → (ins'.op = .ADD ∨ ins'.op = .MUL) →
        ∃ A' B', st'.code[ins'.a]? = some A' ∧ st'.code[ins'.b]? = some B' ∧
          (A'.op.is_const = true → B'.op.is_const = true) ∧
          (A'.op.is_const = false → B'.op.is_const = false → ins'.a ≤ ins'.b)) :=
  fold_addmul_canonical wSwapSt wSwapIns (Ins.KINT .i32 7) ⟨.PARAM, .i32, 0, 0, 0⟩
    (Or.inl rfl) rfl rfl (by decide)

/-- C5 counterexample: for the constant `x = KINT64 i64` holding the
interned value 5 (which fits in an i32), `ADD(x, KINT 0)` does not yield
`x` itself: it folds to the bitwise-different constant `KINT i64 5`. -/
theorem fold_identity_kint64_cex :
    fold cexIdSt cexIdIns = .ok (.Done (Ins.KINT .i64 5), cexIdSt) ∧
    Ins.KINT .i64 5 ≠ Ins.KINT64 .i64 0 := ⟨rfl, by decide⟩

/-- C5 (amended): for every NON-CONSTANT instruction `x`, the fold rewrite
satisfies the identities: `ADD(x, KINT 0)`, `MUL(x, KINT 1)`,
`DIV(x, KINT 1)` and `UDIV(x, KINT 1)` all yield `x` itself (status
`New x`), and `MUL(x, KINT 0)` yields the constant `KINT` of the
instruction's type with value 0.  (For constant `x` the constant-arithmetic
arm fires first and can re-encode the constant: see the counterexample.) -/
theorem fold_identities (st : St) (x z0 z1 : Ins) (xid zid0 zid1 : Nat) (ty : Ty)
    (hx : st.code[xid]? = some x) (hxc : x.op.is_const = false)
    (hz0 : st.code[zid0]? = some z0) (hz00 : z0.op = .KINT) (hz01 : z0.bc = 0)
    (hz1 : st.code[zid1]? = some z1) (hz10 : z1.op = .KINT) (hz11 : z1.bc = 1) :
    fold st ⟨.ADD, ty, xid, zid0, 0⟩ = .ok (.New xid, st) ∧
    fold st ⟨.MUL, ty, xid, zid1, 0⟩ = .ok (.New xid, st) ∧
    fold st ⟨.DIV, ty, xid, zid1, 0⟩ = .ok (.New xid, st) ∧
    fold st ⟨.UDIV, ty, xid, zid1, 0⟩ = .ok (.New xid, st) ∧
    fold st ⟨.MUL, ty, xid, zid0, 0⟩ = .ok (.Done (Ins.KINT ty 0), st) := by
  have hz0c : z0.op.is_const = true := by rw [hz00]; rfl
  have hz1c : z1.op.is_const = true := by rw [hz10]; rfl
  have hk00 : (z0.op == Opcode.KINT && z0.bc == 0) = true := by rw [hz00, hz01]; rfl
  have hk01 : (z0.op == Opcode.KINT && z0.bc == 1) = false := by rw [hz00, hz01]; rfl
  have hk11 : (z1.op == Opcode.KINT && z1.bc == 1) = true := by rw [hz10, hz11]; rfl
  refine ⟨?_, ?_, ?_, ?_, ?_⟩
  · unfold fold
    rw [isConstAt_eq _ _ _ hx, isConstAt_eq _ _ _ hz0, isKintAt_eq _ _ _ _ hz0]
    simp [ebind_ok, hxc, hz0c, hk00]
  · unfold fold
    rw [isConstAt_eq _ _ _ hx, isConstAt_eq _ _ _ hz1,
      isKintAt_eq st.code zid1 z1 1 hz1, isKintAt_eq st.code zid1 z1 0 hz1]
    simp [ebind_ok, hxc, hz1c, hk11]
  · unfold fold
    rw [isConstAt_eq _ _ _ hx, isKintAt_eq st.code zid1 z1 1 hz1]
    simp [ebind_ok, hxc, hk11]
  · unfold fold
    rw [isConstAt_eq _ _ _ hx, isKintAt_eq st.code zid1 z1 1 hz1]
    simp [ebind_ok, hxc, hk11]
  · unfold fold
    rw [isConstAt_eq _ _ _ hx, isConstAt_eq _ _ _ hz0,
      isKintAt_eq st.code zid0 z0 1 hz0, isKintAt_eq st.code zid0 z0 0 hz0]
    simp [ebind_ok, hxc, hz0c, hk00, hk01]

/-- C5 witness: the identities hold at a concrete parameter `x` and the
constants 0 and 1. -/
theorem fold_identities_witness :
    fold wIdSt ⟨.ADD, .i32, 0, 1, 0⟩ = .ok (.New 0, wIdSt) ∧
    fold wIdSt ⟨.MUL, .i32, 0, 2, 0⟩ = .ok (.New 0, wIdSt) ∧
    fold wIdSt ⟨.DIV, .i32, 0, 2, 0⟩ = .ok (.New 0, wIdSt) ∧
    fold wIdSt ⟨.UDIV, .i32, 0, 2, 0⟩ = .ok (.New 0, wIdSt) ∧
    fold wIdSt ⟨.MUL, .i32, 0, 1, 0⟩ = .ok (.Done (Ins.KINT .i32 0), wIdSt) :=
  fold_identities wIdSt ⟨.PARAM, .i32, 0, 0, 0⟩ (Ins.KINT .i32 0) (Ins.KINT .i32 1)
    0 1 2 .i32 rfl rfl rfl (by decide) (by decide) rfl (by decide) (by decide)


/-! ## Preservation machinery for the Fold run -/


theorem bind_ok_iff {α β : Type} (e : Except Panic α) (f : α → Except Panic β) (b : β) :
    (e >>= f) = .ok b ↔ ∃ a, e = .ok a ∧ f a = .ok b := by
  cases e with
  | error err => simp [ebind_err]
  | ok a => simp [ebind_ok]

theorem newkfp_const (fp : List Float) (ty : Ty) (v : Float) :
    (newkfp fp ty v).1.op.is_const = true := by
  unfold newkfp
  split
  · rfl
  · rcases hif : internFloat fp v with ⟨hh, fp2⟩
    rfl

theorem constFold_pres (st : St) (ins : Ins) (status : FoldStatus) (st' : St)
    (h : constFold st ins = .ok (status, st')) :
    st'.code = st.code ∧ st'.cse_map = st.cse_map ∧ st'.next = st.next ∧
    st'.old_new = st.old_new ∧ (∀ d, status = .Done d → d.op.is_const = true) := by
  unfold constFold at h
  cases h1 : st.code[ins.a]? with
  | none => rw [h1] at h; simp at h
  | some left =>
    rw [h1] at h
    cases h2 : st.code[ins.b]? with
    | none => rw [h2] at h; simp at h
    | some right =>
      rw [h2] at h
      split at h
      rotate_left
      · rename_i hfalse
        exact (hfalse left right rfl rfl).elim
      rename_i l r hl hr
      injection hl with hl
      injection hr with hr
      subst hl
      subst hr
      split at h
      · rw [bind_ok_iff] at h
        obtain ⟨lv, _, h⟩ := h
        rw [bind_ok_iff] at h
        obtain ⟨rv, _, h⟩ := h
        rw [bind_ok_iff] at h
        obtain ⟨v, _, h⟩ := h
        injection h with hp
        injection hp with he1 he2
        subst he2
        refine ⟨rfl, rfl, rfl, rfl, fun d hd => ?_⟩
        rw [← he1] at hd
        injection hd with hd
        rw [← hd]
        exact newkfp_const _ _ _
      · rw [bind_ok_iff] at h
        obtain ⟨lv, _, h⟩ := h
        rw [bind_ok_iff] at h
        obtain ⟨rv, _, h⟩ := h
        rw [bind_ok_iff] at h
        obtain ⟨v, _, h⟩ := h
        injection h with hp
        injection hp with he1 he2
        subst he2
        refine ⟨rfl, rfl, rfl, rfl, fun d hd => ?_⟩
        rw [← he1] at hd
        injection hd with hd
        rw [← hd]
        exact (newkint_spec st.ipool st.fpool ins.ty v).1

theorem is_const_ne_mov (o : Opcode) (h : o.is_const = true) : o ≠ .MOV := by
  cases o <;> simp_all [Opcode.is_const]

theorem fold_pres (st : St) (ins : Ins) (status : FoldStatus) (st' : St)
    (h : fold st ins = .ok (status, st')) :
    st'.code = st.code ∧ st'.cse_map = st.cse_map ∧ st'.next = st.next ∧
    st'.old_new = st.old_new ∧ (∀ d, status = .Done d → d.op ≠ .MOV) := by
  unfold fold at h
  split at h
  · -- ADD
    rename_i hop
    rw [bind_ok_iff] at h
    obtain ⟨ca, hca, h⟩ := h
    rw [bind_ok_iff] at h
    obtain ⟨cb, hcb, h⟩ := h
    split at h
    · obtain ⟨c1, c2, c3, c4, c5⟩ := constFold_pres st ins status st' h
      exact ⟨c1, c2, c3, c4, fun d hd => is_const_ne_mov d.op (c5 d hd)⟩
    · split at h
      · injection h with hp
        injection hp with he1 he2
        subst he2
        exact ⟨rfl, rfl, rfl, rfl, fun d hd =>
          FoldStatus.noConfusion (he1.trans hd)⟩
      · rw [bind_ok_iff] at h
        obtain ⟨z, hz, h⟩ := h
        split at h
        · injection h with hp
          injection hp with he1 he2
          subst he2
          exact ⟨rfl, rfl, rfl, rfl, fun d hd =>
            FoldStatus.noConfusion (he1.trans hd)⟩
        · injection h with hp
          injection hp with he1 he2
          subst he2
          refine ⟨rfl, rfl, rfl, rfl, fun d hd => ?_⟩
          injection he1.trans hd with hd2
          rw [← hd2, hop]
          decide
  · -- MUL
    rename_i hop
    rw [bind_ok_iff] at h
    obtain ⟨ca, hca, h⟩ := h
    rw [bind_ok_iff] at h
    obtain ⟨cb, hcb, h⟩ := h
    split at h
    · obtain ⟨c1, c2, c3, c4, c5⟩ := constFold_pres st ins status st' h
      exact ⟨c1, c2, c3, c4, fun d hd => is_const_ne_mov d.op (c5 d hd)⟩
    · split at h
      · injection h with hp
        injection hp with he1 he2
        subst he2
        exact ⟨rfl, rfl, rfl, rfl, fun d hd =>
          FoldStatus.noConfusion (he1.trans hd)⟩
      · rw [bind_ok_iff] at h
        obtain ⟨o1, ho1, h⟩ := h
        split at h
        · injection h with hp
          injection hp with he1 he2
          subst he2
          exact ⟨rfl, rfl, rfl, rfl, fun d hd =>
            FoldStatus.noConfusion (he1.trans hd)⟩
        · rw [bind_ok_iff] at h
          obtain ⟨z0, hz0, h⟩ := h
          split at h
          · injection h with hp
            injection hp with he1 he2
            subst he2
            refine ⟨rfl, rfl, rfl, rfl, fun d hd => ?_⟩
            injection he1.trans hd with hd2
            rw [← hd2]
            simp [Ins.KINT]
          · injection h with hp
            injection hp with he1 he2
            subst he2
            refine ⟨rfl, rfl, rfl, rfl, fun d hd => ?_⟩
            injection he1.trans hd with hd2
            rw [← hd2, hop]
            decide
  · -- DIV
    rename_i hop
    rw [bind_ok_iff] at h
    obtain ⟨ca, hca, h⟩ := h
    split at h
    · rw [bind_ok_iff] at h
      obtain ⟨cb, hcb, h⟩ := h
      split at h
      · obtain ⟨c1, c2, c3, c4, c5⟩ := constFold_pres st ins status st' h
        exact ⟨c1, c2, c3, c4, fun d hd => is_const_ne_mov d.op (c5 d hd)⟩
      · rw [bind_ok_iff] at h
        obtain ⟨o1, ho1, h⟩ := h
        split at h
        · injection h with hp
          injection hp with he1 he2
          subst he2
          exact ⟨rfl, rfl, rfl, rfl, fun d hd =>
            FoldStatus.noConfusion (he1.trans hd)⟩
        · injection h with hp
          injection hp with he1 he2
          subst he2
          refine ⟨rfl, rfl, rfl, rfl, fun d hd => ?_⟩
          injection he1.trans hd with hd2
          rw [← hd2, hop]
          decide
    · rw [bind_ok_iff] at h
      obtain ⟨o1, ho1, h⟩ := h
      split at h
      · injection h with hp
        injection hp with he1 he2
        subst he2
        exact ⟨rfl, rfl, rfl, rfl, fun d hd =>
          FoldStatus.noConfusion (he1.trans hd)⟩
      · injection h with hp
        injection hp with he1 he2
        subst he2
        refine ⟨rfl, rfl, rfl, rfl, fun d hd => ?_⟩
        injection he1.trans hd with hd2
        rw [← hd2, hop]
        decide
  · -- UDIV
    rename_i hop
    rw [bind_ok_iff] at h
    obtain ⟨ca, hca, h⟩ := h
    split at h
    · rw [bind_ok_iff] at h
      obtain ⟨cb, hcb, h⟩ := h
      split at h
      · obtain ⟨c1, c2, c3, c4, c5⟩ := constFold_pres st ins status st' h
        exact ⟨c1, c2, c3, c4, fun d hd => is_const_ne_mov d.op (c5 d hd)⟩
      · rw [bind_ok_iff] at h
        obtain ⟨o1, ho1, h⟩ := h
        split at h
        · injection h with hp
          injection hp with he1 he2
          subst he2
          exact ⟨rfl, rfl, rfl, rfl, fun d hd =>
            FoldStatus.noConfusion (he1.trans hd)⟩
        · injection h with hp
          injection hp with he1 he2
          subst he2
          refine ⟨rfl, rfl, rfl, rfl, fun d hd => ?_⟩
          injection he1.trans hd with hd2
          rw [← hd2, hop]
          decide
    · rw [bind_ok_iff] at h
      obtain ⟨o1, ho1, h⟩ := h
      split at h
      · injection h with hp
        injection hp with he1 he2
        subst he2
        exact ⟨rfl, rfl, rfl, rfl, fun d hd =>
          FoldStatus.noConfusion (he1.trans hd)⟩
      · injection h with hp
        injection hp with he1 he2
        subst he2
        refine ⟨rfl, rfl, rfl, rfl, fun d hd => ?_⟩
        injection he1.trans hd with hd2
        rw [← hd2, hop]
        decide
  · -- SUB
    rename_i hop
    rw [bind_ok_iff] at h
    obtain ⟨ca, hca, h⟩ := h
    split at h
    · rw [bind_ok_iff] at h
      obtain ⟨cb, hcb, h⟩ := h
      split at h
      · obtain ⟨c1, c2, c3, c4, c5⟩ := constFold_pres st ins status st' h
        exact ⟨c1, c2, c3, c4, fun d hd => is_const_ne_mov d.op (c5 d hd)⟩
      · injection h with hp
        injection hp with he1 he2
        subst he2
        refine ⟨rfl, rfl, rfl, rfl, fun d hd => ?_⟩
        injection he1.trans hd with hd2
        rw [← hd2, hop]
        decide
    · injection h with hp
      injection hp with he1 he2
      subst he2
      refine ⟨rfl, rfl, rfl, rfl, fun d hd => ?_⟩
      injection he1.trans hd with hd2
      rw [← hd2, hop]
      decide
  · -- POW
    rename_i hop
    rw [bind_ok_iff] at h
    obtain ⟨ca, hca, h⟩ := h
    split at h
    · rw [bind_ok_iff] at h
      obtain ⟨cb, hcb, h⟩ := h
      split at h
      · obtain ⟨c1, c2, c3, c4, c5⟩ := constFold_pres st ins status st' h
        exact ⟨c1, c2, c3, c4, fun d hd => is_const_ne_mov d.op (c5 d hd)⟩
      · injection h with hp
        injection hp with he1 he2
        subst he2
        refine ⟨rfl, rfl, rfl, rfl, fun d hd => ?_⟩
        injection he1.trans hd with hd2
        rw [← hd2, hop]
        decide
    · injection h with hp
      injection hp with he1 he2
      subst he2
      refine ⟨rfl, rfl, rfl, rfl, fun d hd => ?_⟩
      injection he1.trans hd with hd2
      rw [← hd2, hop]
      decide
  · -- MOV
    injection h with hp
    injection hp with he1 he2
    subst he2
    exact ⟨rfl, rfl, rfl, rfl, fun d hd =>
      FoldStatus.noConfusion (he1.trans hd)⟩
  · -- default: Done unchanged
    rename_i hnmov
    injection h with hp
    injection hp with he1 he2
    subst he2
    refine ⟨rfl, rfl, rfl, rfl, fun d hd => ?_⟩
    injection he1.trans hd with hd2
    rw [← hd2]
    exact fun hc => hnmov hc

theorem getElem?_lt {α : Type} (l : List α) (i : Nat) (x : α) (h : l[i]? = some x) :
    i < l.length := (List.getElem?_eq_some.mp h).1

theorem snoc_getElem? {α : Type} (l : List α) (x : α) (i : Nat) :
    (l ++ [x])[i]? =
      if i < l.length then l[i]? else if i = l.length then some x else none := by
  induction l generalizing i with
  | nil =>
    cases i with
    | zero => simp
    | succ j => simp
  | cons y t ih =>
    cases i with
    | zero => simp
    | succ j =>
      simp only [List.cons_append, List.getElem?_cons_succ, List.length_cons]
      rw [ih j]
      by_cases h1 : j < t.length
      · rw [if_pos h1, if_pos (show j + 1 < t.length + 1 by omega)]
      · rw [if_neg h1, if_neg (show ¬(j + 1 < t.length + 1) by omega)]
        by_cases h2 : j = t.length
        · rw [if_pos h2, if_pos (show j + 1 = t.length + 1 by omega)]
        · rw [if_neg h2, if_neg (show ¬(j + 1 = t.length + 1) by omega)]

theorem foldSteps_pres (fuel : Nat) (st : St) (ins : Ins) (res : FoldRes) (st' : St)
    (h : foldSteps fuel st ins = .ok (res, st')) :
    st'.code = st.code ∧ st'.cse_map = st.cse_map ∧ st'.next = st.next ∧
    st'.old_new = st.old_new ∧ (∀ d, res = .Done d → d.op ≠ .MOV) := by
  induction fuel generalizing st ins with
  | zero => simp [foldSteps] at h
  | succ n ih =>
    cases hf : fold st ins with
    | error e =>
      rw [show foldSteps (n + 1) st ins = Except.error e by
        conv_lhs => rw [foldSteps]
        rw [hf]
        rfl] at h
      exact absurd h (by simp)
    | ok p =>
      obtain ⟨s1, st1⟩ := p
      obtain ⟨f1, f2, f3, f4, f5⟩ := fold_pres st ins s1 st1 hf
      cases s1 with
      | Again ins2 =>
        rw [foldSteps_succ_again st ins ins2 st1 n hf] at h
        obtain ⟨g1, g2, g3, g4, g5⟩ := ih st1 ins2 h
        exact ⟨g1.trans f1, g2.trans f2, g3.trans f3, g4.trans f4, g5⟩
      | Done d =>
        rw [foldSteps_succ_done st ins d st1 n hf] at h
        injection h with hp
        injection hp with he1 he2
        subst he2
        refine ⟨f1, f2, f3, f4, fun d2 hd => ?_⟩
        injection he1.trans hd with hd2
        rw [← hd2]
        exact f5 d rfl
      | New nid =>
        rw [foldSteps_succ_new st ins nid st1 n hf] at h
        injection h with hp
        injection hp with he1 he2
        subst he2
        exact ⟨f1, f2, f3, f4, fun d2 hd =>
          FoldRes.noConfusion (he1.trans hd)⟩

theorem doneInsert_cm (st : St) (ins : Ins) (r : Nat) (st' : St)
    (h : doneInsert st ins = (r, st')) (hmov : ins.op ≠ .MOV) :
    st'.old_new = st.old_new ∧ st'.next = st.next ∧ st'.ipool = st.ipool ∧
    st'.fpool = st.fpool ∧
    (NoMov st.code → NoMov st'.code) ∧ (CseInv st → CseInv st') := by
  unfold doneInsert at h
  split at h
  · rename_i hcse
    cases hf : st.cse_map.find? (fun idx => st.code[idx]? == some ins) with
    | some idx =>
      rw [hf] at h
      injection h with he1 he2
      subst he2
      exact ⟨rfl, rfl, rfl, rfl, id, id⟩
    | none =>
      rw [hf] at h
      injection h with he1 he2
      subst he2
      refine ⟨rfl, rfl, rfl, rfl, ?_, ?_⟩
      · intro hnm i hi
        rcases List.mem_append.mp hi with hi | hi
        · exact hnm i hi
        · rw [List.mem_singleton.mp hi]
          exact hmov
      · rintro ⟨hdup, hmap⟩
        have hnone : ∀ idx ∈ st.cse_map, ¬(st.code[idx]? == some ins) = true :=
          List.find?_eq_none.mp hf
      
        constructor
        · -- no duplicates in code ++ [ins]
          intro i j insi insj hij hgi hgj hci hcj
          simp only [snoc_getElem?] at hgi hgj
          by_cases hi : i < st.code.length <;> by_cases hj : j < st.code.length
          · rw [if_pos hi] at hgi
            rw [if_pos hj] at hgj
            exact hdup i j insi insj hij hgi hgj hci hcj
          · rw [if_pos hi] at hgi
            rw [if_neg hj] at hgj
            split at hgj
            · injection hgj with hgj
              subst hgj
              intro heq
              subst heq
              obtain ⟨idx, hidx, hidxg⟩ := hmap i insi hgi hci
              have := hnone idx hidx
              rw [hidxg] at this
              simp at this
            · exact absurd hgj (by simp)
          · rw [if_neg hi] at hgi
            rw [if_pos hj] at hgj
            split at hgi
            · injection hgi with hgi
              subst hgi
              intro heq
              obtain ⟨idx, hidx, hidxg⟩ := hmap j insj hgj hcj
              have := hnone idx hidx
              rw [hidxg, heq] at this
              simp at this
            · exact absurd hgi (by simp)
          · rw [if_neg hi] at hgi
            rw [if_neg hj] at hgj
            split at hgi
            · split at hgj
              · rename_i e1 e2
                omega
              · exact absurd hgj (by simp)
            · exact absurd hgi (by simp)
        · -- every cse instruction is reachable through the map
          intro i insi hgi hci
          simp only [snoc_getElem?] at hgi
          by_cases hi : i < st.code.length
          · rw [if_pos hi] at hgi
            obtain ⟨idx, hidx, hidxg⟩ := hmap i insi hgi hci
            refine ⟨idx, List.mem_append.mpr (Or.inl hidx), ?_⟩
            rw [snoc_getElem?, if_pos (getElem?_lt _ _ _ hidxg)]
            exact hidxg
          · rw [if_neg hi] at hgi
            split at hgi
            · injection hgi with hgi
              subst hgi
              refine ⟨st.code.length, List.mem_append.mpr (Or.inr (by simp)), ?_⟩
              rw [snoc_getElem?, if_neg (by omega), if_pos rfl]
            · exact absurd hgi (by simp)
  · injection h with he1 he2
    subst he2
    rename_i hncse
    refine ⟨rfl, rfl, rfl, rfl, ?_, ?_⟩
    · intro hnm i hi
      rcases List.mem_append.mp hi with hi | hi
      · exact hnm i hi
      · rw [List.mem_singleton.mp hi]
        exact hmov
    · rintro ⟨hdup, hmap⟩
      constructor
      · intro i j insi insj hij hgi hgj hci hcj
        simp only [snoc_getElem?] at hgi hgj
        by_cases hi : i < st.code.length <;> by_cases hj : j < st.code.length
        · rw [if_pos hi] at hgi
          rw [if_pos hj] at hgj
          exact hdup i j insi insj hij hgi hgj hci hcj
        · rw [if_pos hi] at hgi
          rw [if_neg hj] at hgj
          split at hgj
          · injection hgj with hgj
            subst hgj
            exact absurd hcj (by simp [hncse])
          · exact absurd hgj (by simp)
        · rw [if_neg hi] at hgi
          rw [if_pos hj] at hgj
          split at hgi
          · injection hgi with hgi
            subst hgi
            exact absurd hci (by simp [hncse])
          · exact absurd hgi (by simp)
        · rw [if_neg hi] at hgi
          split at hgi
          · injection hgi with hgi
            subst hgi
            exact absurd hci (by simp [hncse])
          · exact absurd hgi (by simp)
      · intro i insi hgi hci
        simp only [snoc_getElem?] at hgi
        by_cases hi : i < st.code.length
        · rw [if_pos hi] at hgi
          obtain ⟨idx, hidx, hidxg⟩ := hmap i insi hgi hci
          refine ⟨idx, hidx, ?_⟩
          rw [snoc_getElem?, if_pos (getElem?_lt _ _ _ hidxg)]
          exact hidxg
        · rw [if_neg hi] at hgi
          split at hgi
          · injection hgi with hgi
            subst hgi
            exact absurd hci (by simp [hncse])
          · exact absurd hgi (by simp)

theorem cm_of_eq (s1 s2 : St) (hc : s2.code = s1.code) (hm : s2.cse_map = s1.cse_map)
    (h : NoMov s1.code ∧ CseInv s1) : NoMov s2.code ∧ CseInv s2 := by
  obtain ⟨h1, ⟨hd, hmap⟩⟩ := h
  refine ⟨by rw [hc]; exact h1, ?_, ?_⟩
  · unfold NoDupCse at hd ⊢
    rw [hc]
    exact hd
  · intro i insi hg hcse
    rw [hc] at hg
    obtain ⟨idx, hi, hg2⟩ := hmap i insi hg hcse
    exact ⟨idx, by rw [hm]; exact hi, by rw [hc]; exact hg2⟩

theorem doneHandler_cm (st : St) (ins : Ins) (r : Nat) (st' : St)
    (h : doneHandler st ins = (r, st')) (hmov : ins.op ≠ .MOV) :
    st'.old_new = st.old_new ∧
    ((NoMov st.code ∧ CseInv st) → (NoMov st'.code ∧ CseInv st')) := by
  unfold doneHandler at h
  by_cases hc : ins.op.is_control = true
  · rw [if_pos hc] at h
    obtain ⟨d1, d2, d3, d4, d5, d6⟩ :=
      doneInsert_cm { st with next := st.next ++ ins.op.controlSlots.map ins.getSlot }
        ins r st' h hmov
    refine ⟨d1, fun hcm => ?_⟩
    have hcmq : NoMov ({ st with
        next := st.next ++ ins.op.controlSlots.map ins.getSlot } : St).code ∧
        CseInv { st with next := st.next ++ ins.op.controlSlots.map ins.getSlot } :=
      cm_of_eq st _ rfl rfl hcm
    exact ⟨d5 hcmq.1, d6 hcmq.2⟩
  · rw [if_neg hc] at h
    obtain ⟨d1, d2, d3, d4, d5, d6⟩ := doneInsert_cm st ins r st' h hmov
    exact ⟨d1, fun hcm => ⟨d5 hcm.1, d6 hcm.2⟩⟩

theorem visitFinish_cm (fuel : Nat) (st : St) (id : Nat) (ins : Ins) (r : Nat)
    (st' : St) (h : visitFinish fuel st id ins = .ok (r, st')) :
    (NoMov st.code ∧ CseInv st) → (NoMov st'.code ∧ CseInv st') := by
  unfold visitFinish at h
  rw [bind_ok_iff] at h
  obtain ⟨⟨res, st2⟩, hfs, h⟩ := h
  obtain ⟨p1, p2, p3, p4, p5⟩ := foldSteps_pres fuel st ins res st2 hfs
  intro hcm
  have hcm2 : NoMov st2.code ∧ CseInv st2 := cm_of_eq st st2 p1 p2 hcm
  cases res with
  | New nid =>
    have h' : Except.ok (ε := Panic) (nid,
        { st2 with old_new := st2.old_new.set id (some nid) }) = .ok (r, st') := h
    injection h' with hp
    injection hp with he1 he2
    subst he2
    exact cm_of_eq st2 _ rfl rfl hcm2
  | Done dins =>
    cases hdh : doneHandler st2 dins with
    | mk nid2 st3 =>
      have h1 : (match doneHandler st2 dins with
          | (new, stx) => Except.ok (ε := Panic)
              (new, { stx with old_new := stx.old_new.set id (some new) })) =
          Except.ok (r, st') := h
      rw [hdh] at h1
      have h' : Except.ok (ε := Panic) (nid2,
          { st3 with old_new := st3.old_new.set id (some nid2) }) = .ok (r, st') := h1
      injection h' with hp
      injection hp with he1 he2
      subst he2
      obtain ⟨q1, q2⟩ := doneHandler_cm st2 dins nid2 st3 hdh (p5 dins rfl)
      exact cm_of_eq st3 _ rfl rfl (q2 hcm2)

theorem visit_zero (fn : Func) (st : St) (id : Nat) :
    visit fn 0 st id = .error .fuel := rfl

theorem visit_succ (fn : Func) (fuel : Nat) (st : St) (id : Nat) :
    visit fn (fuel + 1) st id =
      (match st.old_new[id]? with
      | none => .error .oob
      | some (some new) => .ok (new, st)
      | some none =>
        match fn.code[id]? with
        | none => .error .oob
        | some ins =>
          if ins.op.numInputs = 0 then visitFinish (fuel + 1) st id ins
          else do
            let (v, st1) ← visit fn fuel st ins.a
            if ins.op.numInputs = 1 then
              visitFinish (fuel + 1) st1 id { ins with a := v }
            else do
              let (v2, st2) ← visit fn fuel st1 ins.b
              visitFinish (fuel + 1) st2 id { ins with a := v, b := v2 }) := by
  conv_lhs => rw [visit]

theorem visit_cm (fn : Func) : ∀ (fuel : Nat) (st : St) (id r : Nat) (st' : St),
    visit fn fuel st id = .ok (r, st') →
    (NoMov st.code ∧ CseInv st) → (NoMov st'.code ∧ CseInv st') := by
  intro fuel
  induction fuel with
  | zero =>
    intro st id r st' h
    rw [visit_zero] at h
    exact absurd h (by simp)
  | succ n ih =>
    intro st id r st' h hcm
    rw [visit_succ] at h
    split at h
    · exact absurd h (by simp)
    · injection h with hp
      injection hp with he1 he2
      subst he2
      exact hcm
    · split at h
      · exact absurd h (by simp)
      · rename_i ins hcode
        split at h
        · exact visitFinish_cm (n + 1) st id ins r st' h hcm
        · rw [bind_ok_iff] at h
          obtain ⟨⟨v, st1⟩, hv, h⟩ := h
          dsimp only at h
          have hcm1 := ih st ins.a v st1 hv hcm
          split at h
          · exact visitFinish_cm (n + 1) st1 id _ r st' h hcm1
          · rw [bind_ok_iff] at h
            obtain ⟨⟨v2, st2⟩, hv2, h⟩ := h
            dsimp only at h
            have hcm2 := ih st1 ins.b v2 st2 hv2 hcm1
            exact visitFinish_cm (n + 1) st2 id _ r st' h hcm2

theorem runQueue_zero (fn : Func) (vfuel : Nat) (st : St) :
    runQueue fn vfuel 0 st =
      (match st.next with
      | [] => .ok st
      | _ :: _ => .error .fuel) := by
  conv_lhs => rw [runQueue]

theorem runQueue_succ (fn : Func) (vfuel qfuel : Nat) (st : St) :
    runQueue fn vfuel (qfuel + 1) st =
      (match st.next with
      | [] => .ok st
      | id :: rest => do
        let (_, st') ← visit fn vfuel { st with next := rest } id
        runQueue fn vfuel qfuel st') := by
  conv_lhs => rw [runQueue]

theorem runQueue_cm (fn : Func) (vfuel : Nat) : ∀ (qfuel : Nat) (st st' : St),
    runQueue fn vfuel qfuel st = .ok st' →
    (NoMov st.code ∧ CseInv st) → (NoMov st'.code ∧ CseInv st') := by
  intro qfuel
  induction qfuel with
  | zero =>
    intro st st' h hcm
    rw [runQueue_zero] at h
    split at h
    · injection h with he
      subst he
      exact hcm
    · exact absurd h (by simp)
  | succ n ih =>
    intro st st' h hcm
    rw [runQueue_succ] at h
    split at h
    · injection h with he
      subst he
      exact hcm
    · rename_i hd tl hn
      rw [bind_ok_iff] at h
      obtain ⟨⟨v, st1⟩, hv, h⟩ := h
      dsimp only at h
      have hcm1 := visit_cm fn vfuel { st with next := tl } hd v st1 hv
        (cm_of_eq st _ rfl rfl hcm)
      exact ih st1 st' h hcm1


theorem setSlot_op (i : Ins) (s v : Nat) : (i.setSlot s v).op = i.op := by
  unfold Ins.setSlot
  split <;> rfl

theorem cse_controls_nil (o : Opcode) (h : o.is_cse = true) : o.controlSlots = [] := by
  cases o <;> simp_all [Opcode.is_cse, Opcode.controlSlots]

theorem fixSlots_op (onw : List (Option Nat)) : ∀ (slots : List Nat) (ins ins' : Ins),
    fixSlots onw ins slots = .ok ins' → ins'.op = ins.op := by
  intro slots
  induction slots with
  | nil =>
    intro ins ins' h
    have h' : Except.ok (ε := Panic) ins = .ok ins' := h
    injection h' with h'
    rw [← h']
  | cons s rest ih =>
    intro ins ins' h
    rw [show fixSlots onw ins (s :: rest) =
        (match onw[ins.getSlot s]? with
        | some (some v) => fixSlots onw (ins.setSlot s v) rest
        | some none => .error .unreach
        | none => .error .oob) from rfl] at h
    split at h
    · rename_i v hv
      rw [ih (ins.setSlot s v) ins' h, setSlot_op]
    · exact absurd h (by simp)
    · exact absurd h (by simp)

theorem fixupCode_rel (onw : List (Option Nat)) : ∀ (code code' : List Ins),
    fixupCode onw code = .ok code' →
    code'.length = code.length ∧
    ∀ (i : Nat) (ins' : Ins), code'[i]? = some ins' →
      ∃ ins, code[i]? = some ins ∧ ins'.op = ins.op ∧
        (ins.op.is_cse = true → ins' = ins) := by
  intro code
  induction code with
  | nil =>
    intro code' h
    have h' : Except.ok (ε := Panic) ([] : List Ins) = .ok code' := h
    injection h' with h'
    subst h'
    exact ⟨rfl, fun i ins' hg => absurd hg (by simp)⟩
  | cons ins rest ih =>
    intro code' h
    rw [show fixupCode onw (ins :: rest) = (do
        let ins1 ← fixSlots onw ins ins.op.controlSlots
        let rest' ← fixupCode onw rest
        (.ok (ins1 :: rest') : Except Panic (List Ins))) from rfl] at h
    rw [bind_ok_iff] at h
    obtain ⟨ins1, hfix, h⟩ := h
    rw [bind_ok_iff] at h
    obtain ⟨rest', hrest, h⟩ := h
    injection h with h
    subst h
    obtain ⟨ihl, ihp⟩ := ih rest' hrest
    refine ⟨by simp [ihl], ?_⟩
    intro i ins'' hg
    cases i with
    | zero =>
      rw [List.getElem?_cons_zero] at hg
      injection hg with hg
      subst hg
      refine ⟨ins, List.getElem?_cons_zero, fixSlots_op onw _ ins ins1 hfix,
        fun hcse => ?_⟩
      rw [cse_controls_nil ins.op hcse] at hfix
      have h' : Except.ok (ε := Panic) ins = .ok ins1 := hfix
      injection h' with h'
      rw [← h']
    | succ j =>
      simp only [List.getElem?_cons_succ] at hg ⊢
      exact ihp j ins'' hg

theorem run_decomp (fuel : Nat) (ocx : Ocx) (fid : Nat) (ocx' : Ocx)
    (h : Fold.run fuel ocx fid = .ok ocx') :
    ∃ fn st1 code' e, ocx.ir[fid]? = some fn ∧
      runQueue fn fuel fuel
        ⟨List.replicate fn.code.length none, [fn.entry], [], [],
          ocx.ipool, ocx.fpool⟩ = .ok st1 ∧
      fixupCode st1.old_new st1.code = .ok code' ∧
      st1.old_new[fn.entry]? = some (some e) ∧
      ocx' = ⟨ocx.ir.set fid ⟨code', e⟩, st1.ipool, st1.fpool⟩ := by
  unfold Fold.run at h
  split at h
  · exact absurd h (by simp)
  · rename_i fn hfn
    rw [bind_ok_iff] at h
    obtain ⟨st1, hq, h⟩ := h
    rw [bind_ok_iff] at h
    obtain ⟨code', hfix, h⟩ := h
    split at h
    · rename_i e hent
      injection h with h
      exact ⟨fn, st1, code', e, hfn, hq, hfix, hent, h.symm⟩
    · exact absurd h (by simp)
    · exact absurd h (by simp)

/-- C7: after every successful Fold run, the installed code contains no
`MOV` instruction: `fold` rewrites every `MOV` to its operand's new id and
never emits one, and the control-successor fix-up preserves opcodes. -/
theorem fold_run_no_mov (fuel : Nat) (ocx : Ocx) (fid : Nat) (ocx' : Ocx) (fn' : Func)
    (h : Fold.run fuel ocx fid = .ok ocx') (hg : ocx'.ir[fid]? = some fn') :
    ∀ ins ∈ fn'.code, ins.op ≠ .MOV := by
  obtain ⟨fn, st1, code', e, hfn, hq, hfix, hent, rfl⟩ := run_decomp fuel ocx fid ocx' h
  have hlt : fid < ocx.ir.length := getElem?_lt _ _ _ hfn
  rw [show (Ocx.mk (ocx.ir.set fid ⟨code', e⟩) st1.ipool st1.fpool).ir =
    ocx.ir.set fid ⟨code', e⟩ from rfl] at hg
  rw [List.getElem?_set_self (by simpa using hlt)] at hg
  injection hg with hg
  subst hg
  have hcm0 : NoMov ([] : List Ins) ∧
      CseInv ⟨List.replicate fn.code.length none, [fn.entry], [], [],
        ocx.ipool, ocx.fpool⟩ := by
    refine ⟨fun i hi => absurd hi (by simp), ?_, ?_⟩
    · intro i j insi insj hij hgi hgj
      simp at hgi
    · intro i insi hgi
      simp at hgi
  have hcm1 := runQueue_cm fn fuel fuel _ st1 hq hcm0
  obtain ⟨hlen, hrel⟩ := fixupCode_rel st1.old_new st1.code code' hfix
  intro ins hins
  obtain ⟨i, hi⟩ := List.getElem?_of_mem hins
  obtain ⟨ins0, hg0, hop, _⟩ := hrel i ins hi
  rw [hop]
  exact hcm1.1 ins0 (List.mem_iff_getElem?.mpr ⟨i, hg0⟩)

/-- C3: after every successful Fold run (including the control-successor
fix-up, which run performs before installing), no two distinct ids of the
installed code hold bitwise-equal `is_cse` instructions. -/
theorem fold_run_cse_unique (fuel : Nat) (ocx : Ocx) (fid : Nat) (ocx' : Ocx)
    (fn' : Func) (h : Fold.run fuel ocx fid = .ok ocx')
    (hg : ocx'.ir[fid]? = some fn') :
    ∀ (i j : Nat) (insi insj : Ins), i ≠ j →
      fn'.code[i]? = some insi → fn'.code[j]? = some insj →
      insi.op.is_cse = true → insj.op.is_cse = true → insi ≠ insj := by
  obtain ⟨fn, st1, code', e, hfn, hq, hfix, hent, rfl⟩ := run_decomp fuel ocx fid ocx' h
  have hlt : fid < ocx.ir.length := getElem?_lt _ _ _ hfn
  rw [show (Ocx.mk (ocx.ir.set fid ⟨code', e⟩) st1.ipool st1.fpool).ir =
    ocx.ir.set fid ⟨code', e⟩ from rfl] at hg
  rw [List.getElem?_set_self (by simpa using hlt)] at hg
  injection hg with hg
  subst hg
  have hcm0 : NoMov ([] : List Ins) ∧
      CseInv ⟨List.replicate fn.code.length none, [fn.entry], [], [],
        ocx.ipool, ocx.fpool⟩ := by
    refine ⟨fun i hi => absurd hi (by simp), ?_, ?_⟩
    · intro i j insi insj hij hgi hgj
      simp at hgi
    · intro i insi hgi
      simp at hgi
  have hcm1 := runQueue_cm fn fuel fuel _ st1 hq hcm0
  obtain ⟨hlen, hrel⟩ := fixupCode_rel st1.old_new st1.code code' hfix
  intro i j insi insj hij hgi hgj hci hcj
  obtain ⟨ins0i, hg0i, hopi, hcsei⟩ := hrel i insi hgi
  obtain ⟨ins0j, hg0j, hopj, hcsej⟩ := hrel j insj hgj
  have hc0i : ins0i.op.is_cse = true := by rw [← hopi]; exact hci
  have hc0j : ins0j.op.is_cse = true := by rw [← hopj]; exact hcj
  rw [hcsei hc0i, hcsej hc0j]
  exact hcm1.2.1 i j ins0i ins0j hij hg0i hg0j hc0i hc0j

/-- C10: `Fold::run` modifies only the function at `fid` (plus the Fold
scratch and the constant pool): every other function of the IR is
unchanged. -/
theorem fold_run_frame (fuel : Nat) (ocx : Ocx) (fid : Nat) (ocx' : Ocx)
    (h : Fold.run fuel ocx fid = .ok ocx') :
    ∀ g : Nat, g ≠ fid → ocx'.ir[g]? = ocx.ir[g]? := by
  obtain ⟨fn, st1, code', e, hfn, hq, hfix, hent, rfl⟩ := run_decomp fuel ocx fid ocx' h
  intro g hgne
  exact List.getElem?_set_ne (fun hc => hgne hc.symm)


/-- C7 witness: a function with a `MOV` chain; the installed code has none. -/
theorem fold_run_no_mov_witness :
    Fold.run 20 wMovOcx 0 = .ok wMovOut ∧ ∀ ins ∈ wMovFn.code, ins.op ≠ .MOV :=
  ⟨rfl, fold_run_no_mov 20 wMovOcx 0 wMovOut wMovFn rfl rfl⟩

/-- C3 witness: a function with two identical `ADD`s; the installed code
holds a single copy and no duplicated `is_cse` instruction. -/
theorem fold_run_cse_unique_witness :
    Fold.run 20 wCseOcx 0 = .ok wCseOut ∧
    ∀ (i j : Nat) (insi insj : Ins), i ≠ j →
      wCseFn.code[i]? = some insi → wCseFn.code[j]? = some insj →
      insi.op.is_cse = true → insj.op.is_cse = true → insi ≠ insj :=
  ⟨rfl, fold_run_cse_unique 20 wCseOcx 0 wCseOut wCseFn rfl rfl⟩

/-- C10 witness: running Fold on function 0 of a two-function IR leaves
function 1 untouched. -/
theorem fold_run_frame_witness :
    Fold.run 20 wFrameOcx 0 = .ok wFrameOut ∧
    wFrameOut.ir[1]? = wFrameOcx.ir[1]? :=
  ⟨rfl, fold_run_frame 20 wFrameOcx 0 wFrameOut rfl 1 (by decide)⟩


/-! ## Totality of the Fold run (C2) -/


theorem countNone_set (l : List (Option Nat)) : ∀ (i v : Nat), l[i]? = some none →
    countNone (l.set i (some v)) + 1 = countNone l := by
  induction l with
  | nil => intro i v h; simp at h
  | cons x rest ih =>
    intro i v h
    cases i with
    | zero =>
      simp only [List.getElem?_cons_zero] at h
      injection h with h
      subst h
      simp [countNone, List.filter]
    | succ i =>
      simp only [List.getElem?_cons_succ] at h
      have := ih i v h
      simp only [List.set_cons_succ, countNone, List.filter] at *
      cases hx : x.isNone <;> simp [hx] at * <;> omega

theorem countNone_replicate (n : Nat) : countNone (List.replicate n none) = n := by
  induction n with
  | zero => rfl
  | succ n ih =>
    simp only [List.replicate_succ, countNone, List.filter] at *
    simp [ih]

theorem countNone_pos (l : List (Option Nat)) (i : Nat) (h : l[i]? = some none) :
    1 ≤ countNone l := by
  induction l generalizing i with
  | nil => simp at h
  | cons x rest ih =>
    cases i with
    | zero =>
      simp only [List.getElem?_cons_zero] at h
      injection h with h
      subst h
      simp [countNone, List.filter]
    | succ i =>
      simp only [List.getElem?_cons_succ] at h
      have := ih i h
      simp only [countNone, List.filter] at *
      cases hx : x.isNone <;> simp [hx] <;> omega

theorem controlSlots_nodup (op : Opcode) : op.controlSlots.Nodup := by
  cases op <;> decide

theorem controlSlots_lt3 (op : Opcode) : ∀ s ∈ op.controlSlots, s < 3 := by
  cases op <;> decide

theorem controlSlots_len (op : Opcode) : op.controlSlots.length ≤ 2 := by
  cases op <;> decide

theorem numInputs1_controlSlots (op : Opcode) (h : 1 ≤ op.numInputs) :
    ∀ s ∈ op.controlSlots, s = 1 ∨ s = 2 := by
  revert h; cases op <;> decide

theorem numInputs2_controlSlots (op : Opcode) (h : 2 ≤ op.numInputs) :
    op.controlSlots = [] := by
  revert h; cases op <;> decide

theorem notControl_controlSlots (op : Opcode) (h : op.is_control = false) :
    op.controlSlots = [] := by
  revert h; cases op <;> decide

theorem numInputs1_not_khandle (op : Opcode) (h : 1 ≤ op.numInputs) :
    op ≠ .KINT64 ∧ op ≠ .KFP64 := by
  revert h; cases op <;> decide

theorem getSlot_setSlot_ne (i : Ins) (s t v : Nat) (hs : s < 3) (ht : t < 3)
    (hne : s ≠ t) : (i.setSlot s v).getSlot t = i.getSlot t := by
  interval_cases s <;> interval_cases t <;> simp_all [Ins.getSlot, Ins.setSlot]

theorem getSlot_seta (i : Ins) (v s : Nat) (h : s = 1 ∨ s = 2) :
    ({ i with a := v } : Ins).getSlot s = i.getSlot s := by
  rcases h with rfl | rfl <;> rfl

theorem stext_rfl (st : St) : StExt st st :=
  ⟨rfl, fun _ _ h => h, le_rfl, fun _ h => h, le_rfl, le_rfl⟩

theorem stext_trans (s1 s2 s3 : St) (h1 : StExt s1 s2) (h2 : StExt s2 s3) :
    StExt s1 s3 := by
  obtain ⟨a1, b1, c1, d1, e1, f1⟩ := h1
  obtain ⟨a2, b2, c2, d2, e2, f2⟩ := h2
  exact ⟨a2.trans a1, fun i v h => b2 i v (b1 i v h), c1.trans c2,
    fun x h => d2 x (d1 x h), e1.trans e2, f1.trans f2⟩

theorem insOk_mono (len ex : Nat) (st st' : St) (ins : Ins)
    (hn : ∀ x ∈ st.next, x ∈ st'.next)
    (ho : ∀ (i v : Nat), st.old_new[i]? = some (some v) → st'.old_new[i]? = some (some v))
    (hip : st.ipool.length ≤ st'.ipool.length)
    (hfp : st.fpool.length ≤ st'.fpool.length)
    (h : insOk len ex st ins) : insOk len ex st' ins := by
  obtain ⟨h1, h2, h3⟩ := h
  refine ⟨fun e => lt_of_lt_of_le (h1 e) hip, fun e => lt_of_lt_of_le (h2 e) hfp, ?_⟩
  intro s hs
  obtain ⟨hlt, hcase⟩ := h3 s hs
  refine ⟨hlt, ?_⟩
  rcases hcase with h | h | ⟨v, h⟩
  · exact Or.inl h
  · exact Or.inr (Or.inl (hn _ h))
  · exact Or.inr (Or.inr ⟨v, ho _ v h⟩)

theorem insOk_switch (len ex ex' : Nat) (st : St) (ins : Ins)
    (hset : ∃ v, st.old_new[ex]? = some (some v))
    (h : insOk len ex st ins) : insOk len ex' st ins := by
  obtain ⟨h1, h2, h3⟩ := h
  refine ⟨h1, h2, fun s hs => ?_⟩
  obtain ⟨hlt, hcase⟩ := h3 s hs
  refine ⟨hlt, ?_⟩
  rcases hcase with h | h | h
  · exact Or.inr (Or.inr (h ▸ hset))
  · exact Or.inr (Or.inl h)
  · exact Or.inr (Or.inr h)

theorem visitInv_switch (fn : Func) (ipl fpl ex ex' : Nat) (st : St)
    (hset : ∃ v, st.old_new[ex]? = some (some v))
    (h : VisitInv fn ipl fpl ex st) : VisitInv fn ipl fpl ex' st := by
  obtain ⟨a, b, c, d, e, f, g⟩ := h
  refine ⟨a, b, c, d, e, fun ins hi => insOk_switch _ ex ex' _ _ hset (f ins hi), ?_⟩
  rcases g with h | h | h
  · exact Or.inr (Or.inr (h ▸ hset))
  · exact Or.inr (Or.inl h)
  · exact Or.inr (Or.inr h)

theorem visitInv_pop (fn : Func) (ipl fpl : Nat) (st : St) (id : Nat) (rest : List Nat)
    (hInv : VisitInv fn ipl fpl fn.code.length st)
    (hentry : fn.entry < fn.code.length)
    (hnext : st.next = id :: rest) :
    VisitInv fn ipl fpl id { st with next := rest } := by
  obtain ⟨a, b, c, d, e, f, g⟩ := hInv
  refine ⟨a, b, fun x hx => c x (by rw [hnext]; exact List.mem_cons_of_mem _ hx), d, e,
    ?_, ?_⟩
  · intro ins hi
    obtain ⟨h1, h2, h3⟩ := f ins hi
    refine ⟨h1, h2, fun s hs => ?_⟩
    obtain ⟨hlt, hcase⟩ := h3 s hs
    refine ⟨hlt, ?_⟩
    rcases hcase with h | h | h
    · omega
    · rw [hnext] at h
      rcases List.mem_cons.mp h with h | h
      · exact Or.inl h
      · exact Or.inr (Or.inl h)
    · exact Or.inr (Or.inr h)
  · rcases g with h | h | h
    · omega
    · rw [hnext] at h
      rcases List.mem_cons.mp h with h | h
      · exact Or.inl h
      · exact Or.inr (Or.inl h)
    · exact Or.inr (Or.inr h)

theorem internFloat_len (pool : List Float) (v : Float) :
    pool.length ≤ (internFloat pool v).2.length := by
  induction pool with
  | nil => simp [internFloat]
  | cons x rest ih =>
    simp only [internFloat]
    split
    · simp
    · cases he : internFloat rest v with
      | mk i rest' =>
        rw [he] at ih
        simpa using Nat.succ_le_succ ih

theorem internFloat_lt (pool : List Float) (v : Float) :
    (internFloat pool v).1 < (internFloat pool v).2.length := by
  induction pool with
  | nil => simp [internFloat]
  | cons x rest ih =>
    simp only [internFloat]
    split
    · simp
    · cases he : internFloat rest v with
      | mk i rest' =>
        rw [he] at ih
        simpa using Nat.succ_lt_succ ih

theorem internInt_lt (pool : List Int) (v : Int) :
    (internInt pool v).1 < (internInt pool v).2.length :=
  getElem?_lt _ _ _ (internInt_get pool v)

theorem kintvalue_total (ip : List Int) (fp : List Float) (ins : Ins)
    (hc : ins.op.is_const = true)
    (h64 : ins.op = .KINT64 → ins.bc < ip.length)
    (hfp : ins.op = .KFP64 → ins.bc < fp.length) :
    ∃ v, kintvalue ip fp ins = .ok v := by
  unfold kintvalue
  cases hop : ins.op
  all_goals first
    | (exact ⟨_, rfl⟩)
    | (rw [List.getElem?_eq_getElem (h64 hop)]; exact ⟨_, rfl⟩)
    | (rw [List.getElem?_eq_getElem (hfp hop)]; exact ⟨_, rfl⟩)
    | (rw [hop] at hc; exact absurd hc (by decide))

theorem kfpvalue_total (ip : List Int) (fp : List Float) (ins : Ins)
    (hc : ins.op.is_const = true)
    (h64 : ins.op = .KINT64 → ins.bc < ip.length)
    (hfp : ins.op = .KFP64 → ins.bc < fp.length) :
    ∃ v, kfpvalue ip fp ins = .ok v := by
  unfold kfpvalue
  cases hop : ins.op
  all_goals first
    | (exact ⟨_, rfl⟩)
    | (rw [List.getElem?_eq_getElem (h64 hop)]; exact ⟨_, rfl⟩)
    | (rw [List.getElem?_eq_getElem (hfp hop)]; exact ⟨_, rfl⟩)
    | (rw [hop] at hc; exact absurd hc (by decide))

theorem foldintarith_total (op : Opcode) (l r : Int)
    (hn : op.numInputs = 2) (hpow : op ≠ .POW) :
    (∃ v, foldintarith op l r = .ok v) ∨ foldintarith op l r = .error .divFault := by
  cases op
  case POW => exact absurd rfl hpow
  case DIV =>
    dsimp only [foldintarith]
    split
    · exact Or.inr rfl
    · exact Or.inl ⟨_, rfl⟩
  case UDIV =>
    dsimp only [foldintarith]
    split
    · exact Or.inr rfl
    · exact Or.inl ⟨_, rfl⟩
  case ADD => exact Or.inl ⟨_, rfl⟩
  case SUB => exact Or.inl ⟨_, rfl⟩
  case MUL => exact Or.inl ⟨_, rfl⟩
  all_goals exact absurd hn (by decide)

theorem foldfparith_total (op : Opcode) (l r : Float)
    (hn : op.numInputs = 2) (hud : op ≠ .UDIV) :
    ∃ v, foldfparith op l r = .ok v := by
  cases op
  case UDIV => exact absurd rfl hud
  case ADD => exact ⟨_, rfl⟩
  case SUB => exact ⟨_, rfl⟩
  case MUL => exact ⟨_, rfl⟩
  case DIV => exact ⟨_, rfl⟩
  case POW => exact ⟨_, rfl⟩
  all_goals exact absurd hn (by decide)

theorem newkint_ok (pool : List Int) (ty : Ty) (v : Int) :
    pool.length ≤ (newkint pool ty v).2.length ∧
    ((newkint pool ty v).1.op = .KINT64 → (newkint pool ty v).1.bc < (newkint pool ty v).2.length) ∧
    ((newkint pool ty v).1.op = .KFP64 → False) ∧
    (newkint pool ty v).1.op.controlSlots = [] := by
  unfold newkint
  split
  · exact ⟨le_rfl, fun h => by simp [Ins.KINT] at h, fun h => by simp [Ins.KINT] at h, rfl⟩
  · cases he : internInt pool v with
    | mk h pool' =>
      have hlt := internInt_lt pool v
      have hlen := internInt_len pool v
      rw [he] at hlt hlen
      simp only
      refine ⟨hlen, fun _ => ?_, fun hbad => by simp [Ins.KINT64] at hbad, rfl⟩
      rw [bc_KINT64]
      exact hlt

theorem newkfp_ok (pool : List Float) (ty : Ty) (v : Float) :
    pool.length ≤ (newkfp pool ty v).2.length ∧
    ((newkfp pool ty v).1.op = .KINT64 → False) ∧
    ((newkfp pool ty v).1.op = .KFP64 → (newkfp pool ty v).1.bc < (newkfp pool ty v).2.length) ∧
    (newkfp pool ty v).1.op.controlSlots = [] := by
  unfold newkfp
  split
  · exact ⟨le_rfl, fun h => by simp [Ins.KINT] at h, fun h => by simp [Ins.KINT] at h, rfl⟩
  · cases he : internFloat pool v with
    | mk h pool' =>
      have hlt := internFloat_lt pool v
      have hlen := internFloat_len pool v
      rw [he] at hlt hlen
      simp only
      refine ⟨hlen, fun hbad => by simp [Ins.KFP64] at hbad, fun _ => ?_, rfl⟩
      have : (Ins.KFP64 ty h).bc = h := by simp [Ins.KFP64, Ins.bc]; omega
      rw [this]
      exact hlt

theorem constFold_total (st : St) (ins : Ins) (left right : Ins)
    (hl : st.code[ins.a]? = some left) (hr : st.code[ins.b]? = some right)
    (hlc : left.op.is_const = true) (hrc : right.op.is_const = true)
    (hcode : ∀ i ∈ st.code,
      (i.op = .KINT64 → i.bc < st.ipool.length) ∧ (i.op = .KFP64 → i.bc < st.fpool.length))
    (hn : ins.op.numInputs = 2)
    (hpow : ins.op = .POW → ins.ty = .f32 ∨ ins.ty = .f64)
    (hudiv : ins.op = .UDIV → ¬(ins.ty = .f32 ∨ ins.ty = .f64)) :
    constFold st ins = .error .divFault ∨
    ∃ k st', constFold st ins = .ok (.Done k, st') ∧
      st'.code = st.code ∧ st'.cse_map = st.cse_map ∧ st'.next = st.next ∧
      st'.old_new = st.old_new ∧
      st.ipool.length ≤ st'.ipool.length ∧ st.fpool.length ≤ st'.fpool.length ∧
      (k.op = .KINT64 → k.bc < st'.ipool.length) ∧
      (k.op = .KFP64 → k.bc < st'.fpool.length) ∧
      k.op.controlSlots = [] := by
  have hlw := hcode left (List.getElem?_mem hl)
  have hrw := hcode right (List.getElem?_mem hr)
  unfold constFold
  rw [hl, hr]
  dsimp only
  by_cases hty : ins.ty = .f32 ∨ ins.ty = .f64
  · rw [if_pos hty]
    obtain ⟨lv, hlv⟩ := kfpvalue_total st.ipool st.fpool left hlc hlw.1 hlw.2
    obtain ⟨rv, hrv⟩ := kfpvalue_total st.ipool st.fpool right hrc hrw.1 hrw.2
    rw [hlv]
    simp only [ebind_ok]
    rw [hrv]
    simp only [ebind_ok]
    have hne : ins.op ≠ .UDIV := fun h => (hudiv h) hty
    obtain ⟨v, hv⟩ := foldfparith_total ins.op lv rv hn hne
    rw [hv]
    simp only [ebind_ok]
    have hok := newkfp_ok st.fpool ins.ty v
    exact Or.inr ⟨_, _, rfl, rfl, rfl, rfl, rfl, le_rfl, hok.1,
      fun h => (hok.2.1 h).elim, fun h => hok.2.2.1 h, hok.2.2.2⟩
  · rw [if_neg hty]
    obtain ⟨lv, hlv⟩ := kintvalue_total st.ipool st.fpool left hlc hlw.1 hlw.2
    obtain ⟨rv, hrv⟩ := kintvalue_total st.ipool st.fpool right hrc hrw.1 hrw.2
    rw [hlv]
    simp only [ebind_ok]
    rw [hrv]
    simp only [ebind_ok]
    have hne : ins.op ≠ .POW := fun h => hty (hpow h)
    rcases foldintarith_total ins.op lv rv hn hne with ⟨v, hv⟩ | hv
    · rw [hv]
      simp only [ebind_ok]
      have hok := newkint_ok st.ipool ins.ty v
      exact Or.inr ⟨_, _, rfl, rfl, rfl, rfl, rfl, hok.1, le_rfl,
        fun h => hok.2.1 h, fun h => (hok.2.2.1 h).elim, hok.2.2.2⟩
    · rw [hv]
      exact Or.inl rfl

theorem fold_total (L : Nat) (st : St) (ins : Ins)
    (h1 : 1 ≤ ins.op.numInputs → ins.a < st.code.length)
    (h2 : 2 ≤ ins.op.numInputs → ins.b < st.code.length)
    (hcode : ∀ i ∈ st.code,
      (i.op = .KINT64 → i.bc < st.ipool.length) ∧ (i.op = .KFP64 → i.bc < st.fpool.length))
    (h4 : ins.op = .POW → ins.ty = .f32 ∨ ins.ty = .f64)
    (h5 : ins.op = .UDIV → ¬(ins.ty = .f32 ∨ ins.ty = .f64))
    (h6 : ∀ s ∈ ins.op.controlSlots, ins.getSlot s < L)
    (h7 : ins.op = .KINT64 → ins.bc < st.ipool.length)
    (h8 : ins.op = .KFP64 → ins.bc < st.fpool.length) :
    fold st ins = .error .divFault ∨
    ∃ res st', fold st ins = .ok (res, st') ∧
      st'.code = st.code ∧ st'.cse_map = st.cse_map ∧ st'.next = st.next ∧
      st'.old_new = st.old_new ∧
      st.ipool.length ≤ st'.ipool.length ∧ st.fpool.length ≤ st'.fpool.length ∧
      (match res with
       | .Done d =>
           (d.op = .KINT64 → d.bc < st'.ipool.length) ∧
           (d.op = .KFP64 → d.bc < st'.fpool.length) ∧
           (∀ s ∈ d.op.controlSlots, d.getSlot s < L)
       | .New n => n < st.code.length
       | .Again ins2 => ins2 = swap01 ins ∧ st' = st ∧
           (ins.op = .ADD ∨ ins.op = .MUL) ∧
           ∃ left right, st.code[ins.a]? = some left ∧ st.code[ins.b]? = some right ∧
             ((left.op.is_const = true ∧ right.op.is_const = false) ∨
              (left.op.is_const = false ∧ right.op.is_const = false ∧ ins.b < ins.a))) := by
  cases hop : ins.op
  case KINT =>
    exact Or.inr ⟨.Done ins, st, by unfold fold; rw [hop], rfl, rfl, rfl, rfl,
      le_rfl, le_rfl, h7, h8, h6⟩
  case KINT64 =>
    exact Or.inr ⟨.Done ins, st, by unfold fold; rw [hop], rfl, rfl, rfl, rfl,
      le_rfl, le_rfl, h7, h8, h6⟩
  case KFP64 =>
    exact Or.inr ⟨.Done ins, st, by unfold fold; rw [hop], rfl, rfl, rfl, rfl,
      le_rfl, le_rfl, h7, h8, h6⟩
  case PARAM =>
    exact Or.inr ⟨.Done ins, st, by unfold fold; rw [hop], rfl, rfl, rfl, rfl,
      le_rfl, le_rfl, h7, h8, h6⟩
  case RET =>
    exact Or.inr ⟨.Done ins, st, by unfold fold; rw [hop], rfl, rfl, rfl, rfl,
      le_rfl, le_rfl, h7, h8, h6⟩
  case JMP =>
    exact Or.inr ⟨.Done ins, st, by unfold fold; rw [hop], rfl, rfl, rfl, rfl,
      le_rfl, le_rfl, h7, h8, h6⟩
  case IF =>
    exact Or.inr ⟨.Done ins, st, by unfold fold; rw [hop], rfl, rfl, rfl, rfl,
      le_rfl, le_rfl, h7, h8, h6⟩
  case MOV =>
    exact Or.inr ⟨.New ins.a, st, by unfold fold; rw [hop], rfl, rfl, rfl, rfl,
      le_rfl, le_rfl, h1 (by rw [hop]; decide)⟩
  case ADD =>
    have ha := h1 (by rw [hop]; decide)
    have hb := h2 (by rw [hop]; decide)
    obtain ⟨left, hl⟩ : ∃ x, st.code[ins.a]? = some x := ⟨_, List.getElem?_eq_getElem ha⟩
    obtain ⟨right, hr⟩ : ∃ x, st.code[ins.b]? = some x := ⟨_, List.getElem?_eq_getElem hb⟩
    unfold fold
    rw [hop]
    dsimp only
    rw [isConstAt_eq st.code ins.a left hl, isConstAt_eq st.code ins.b right hr]
    simp only [ebind_ok]
    cases hlc : left.op.is_const <;> cases hrc : right.op.is_const
    · rw [if_neg (by decide)]
      by_cases hba : ins.b < ins.a
      · rw [if_pos (by simp [hba])]
        exact Or.inr ⟨.Again (swap01 ins), st, rfl, rfl, rfl, rfl, rfl, le_rfl, le_rfl,
          rfl, rfl, Or.inl (by trivial), left, right, hl, hr, Or.inr ⟨hlc, hrc, hba⟩⟩
      · rw [if_neg (by simp [hba])]
        rw [isKintAt_eq st.code ins.b right 0 hr]
        simp only [ebind_ok]
        split
        · exact Or.inr ⟨.New ins.a, st, rfl, rfl, rfl, rfl, rfl, le_rfl, le_rfl, ha⟩
        · exact Or.inr ⟨.Done ins, st, rfl, rfl, rfl, rfl, rfl, le_rfl, le_rfl, h7, h8, h6⟩
    · rw [if_neg (by decide), if_neg (by simp)]
      rw [isKintAt_eq st.code ins.b right 0 hr]
      simp only [ebind_ok]
      split
      · exact Or.inr ⟨.New ins.a, st, rfl, rfl, rfl, rfl, rfl, le_rfl, le_rfl, ha⟩
      · exact Or.inr ⟨.Done ins, st, rfl, rfl, rfl, rfl, rfl, le_rfl, le_rfl, h7, h8, h6⟩
    · rw [if_neg (by decide), if_pos (by simp)]
      exact Or.inr ⟨.Again (swap01 ins), st, rfl, rfl, rfl, rfl, rfl, le_rfl, le_rfl,
        rfl, rfl, Or.inl (by trivial), left, right, hl, hr, Or.inl ⟨hlc, hrc⟩⟩
    · rw [if_pos (by decide)]
      rcases constFold_total st ins left right hl hr hlc hrc hcode (by rw [hop]; decide)
          h4 h5 with h | ⟨k, st1, hk, hc1, hc2, hc3, hc4, hc5, hc6, hk1, hk2, hk3⟩
      · exact Or.inl h
      · exact Or.inr ⟨.Done k, st1, hk, hc1, hc2, hc3, hc4, hc5, hc6, hk1, hk2,
          fun s hs => by rw [hk3] at hs; cases hs⟩
  case MUL =>
    have ha := h1 (by rw [hop]; decide)
    have hb := h2 (by rw [hop]; decide)
    obtain ⟨left, hl⟩ : ∃ x, st.code[ins.a]? = some x := ⟨_, List.getElem?_eq_getElem ha⟩
    obtain ⟨right, hr⟩ : ∃ x, st.code[ins.b]? = some x := ⟨_, List.getElem?_eq_getElem hb⟩
    unfold fold
    rw [hop]
    dsimp only
    rw [isConstAt_eq st.code ins.a left hl, isConstAt_eq st.code ins.b right hr]
    simp only [ebind_ok]
    cases hlc : left.op.is_const <;> cases hrc : right.op.is_const
    · rw [if_neg (by decide)]
      by_cases hba : ins.b < ins.a
      · rw [if_pos (by simp [hba])]
        exact Or.inr ⟨.Again (swap01 ins), st, rfl, rfl, rfl, rfl, rfl, le_rfl, le_rfl,
          rfl, rfl, Or.inr (by trivial), left, right, hl, hr, Or.inr ⟨hlc, hrc, hba⟩⟩
      · rw [if_neg (by simp [hba])]
        rw [isKintAt_eq st.code ins.b right 1 hr]
        simp only [ebind_ok]
        split
        · exact Or.inr ⟨.New ins.a, st, rfl, rfl, rfl, rfl, rfl, le_rfl, le_rfl, ha⟩
        · rw [isKintAt_eq st.code ins.b right 0 hr]
          simp only [ebind_ok]
          split
          · exact Or.inr ⟨.Done (Ins.KINT ins.ty 0), st, rfl, rfl, rfl, rfl, rfl,
              le_rfl, le_rfl, fun h => by simp [Ins.KINT] at h,
              fun h => by simp [Ins.KINT] at h,
              fun s hs => by simp [Ins.KINT, Opcode.controlSlots] at hs⟩
          · exact Or.inr ⟨.Done ins, st, rfl, rfl, rfl, rfl, rfl, le_rfl, le_rfl, h7, h8, h6⟩
    · rw [if_neg (by decide), if_neg (by simp)]
      rw [isKintAt_eq st.code ins.b right 1 hr]
      simp only [ebind_ok]
      split
      · exact Or.inr ⟨.New ins.a, st, rfl, rfl, rfl, rfl, rfl, le_rfl, le_rfl, ha⟩
      · rw [isKintAt_eq st.code ins.b right 0 hr]
        simp only [ebind_ok]
        split
        · exact Or.inr ⟨.Done (Ins.KINT ins.ty 0), st, rfl, rfl, rfl, rfl, rfl,
            le_rfl, le_rfl, fun h => by simp [Ins.KINT] at h,
            fun h => by simp [Ins.KINT] at h,
            fun s hs => by simp [Ins.KINT, Opcode.controlSlots] at hs⟩
        · exact Or.inr ⟨.Done ins, st, rfl, rfl, rfl, rfl, rfl, le_rfl, le_rfl, h7, h8, h6⟩
    · rw [if_neg (by decide), if_pos (by simp)]
      exact Or.inr ⟨.Again (swap01 ins), st, rfl, rfl, rfl, rfl, rfl, le_rfl, le_rfl,
        rfl, rfl, Or.inr (by trivial), left, right, hl, hr, Or.inl ⟨hlc, hrc⟩⟩
    · rw [if_pos (by decide)]
      rcases constFold_total st ins left right hl hr hlc hrc hcode (by rw [hop]; decide)
          h4 h5 with h | ⟨k, st1, hk, hc1, hc2, hc3, hc4, hc5, hc6, hk1, hk2, hk3⟩
      · exact Or.inl h
      · exact Or.inr ⟨.Done k, st1, hk, hc1, hc2, hc3, hc4, hc5, hc6, hk1, hk2,
          fun s hs => by rw [hk3] at hs; cases hs⟩
  case DIV =>
    have ha := h1 (by rw [hop]; decide)
    have hb := h2 (by rw [hop]; decide)
    obtain ⟨left, hl⟩ : ∃ x, st.code[ins.a]? = some x := ⟨_, List.getElem?_eq_getElem ha⟩
    obtain ⟨right, hr⟩ : ∃ x, st.code[ins.b]? = some x := ⟨_, List.getElem?_eq_getElem hb⟩
    unfold fold
    rw [hop]
    dsimp only
    rw [isConstAt_eq st.code ins.a left hl]
    simp only [ebind_ok]
    cases hlc : left.op.is_const
    · rw [if_neg (by decide)]
      rw [isKintAt_eq st.code ins.b right 1 hr]
      simp only [ebind_ok]
      split
      · exact Or.inr ⟨.New ins.a, st, rfl, rfl, rfl, rfl, rfl, le_rfl, le_rfl, ha⟩
      · exact Or.inr ⟨.Done ins, st, rfl, rfl, rfl, rfl, rfl, le_rfl, le_rfl, h7, h8, h6⟩
    · rw [if_pos rfl]
      rw [isConstAt_eq st.code ins.b right hr]
      simp only [ebind_ok]
      cases hrc : right.op.is_const
      · rw [if_neg (by decide)]
        rw [isKintAt_eq st.code ins.b right 1 hr]
        simp only [ebind_ok]
        split
        · exact Or.inr ⟨.New ins.a, st, rfl, rfl, rfl, rfl, rfl, le_rfl, le_rfl, ha⟩
        · exact Or.inr ⟨.Done ins, st, rfl, rfl, rfl, rfl, rfl, le_rfl, le_rfl, h7, h8, h6⟩
      · rw [if_pos rfl]
        rcases constFold_total st ins left right hl hr hlc hrc hcode (by rw [hop]; decide)
            h4 h5 with h | ⟨k, st1, hk, hc1, hc2, hc3, hc4, hc5, hc6, hk1, hk2, hk3⟩
        · exact Or.inl h
        · exact Or.inr ⟨.Done k, st1, hk, hc1, hc2, hc3, hc4, hc5, hc6, hk1, hk2,
            fun s hs => by rw [hk3] at hs; cases hs⟩
  case UDIV =>
    have ha := h1 (by rw [hop]; decide)
    have hb := h2 (by rw [hop]; decide)
    obtain ⟨left, hl⟩ : ∃ x, st.code[ins.a]? = some x := ⟨_, List.getElem?_eq_getElem ha⟩
    obtain ⟨right, hr⟩ : ∃ x, st.code[ins.b]? = some x := ⟨_, List.getElem?_eq_getElem hb⟩
    unfold fold
    rw [hop]
    dsimp only
    rw [isConstAt_eq st.code ins.a left hl]
    simp only [ebind_ok]
    cases hlc : left.op.is_const
    · rw [if_neg (by decide)]
      rw [isKintAt_eq st.code ins.b right 1 hr]
      simp only [ebind_ok]
      split
      · exact Or.inr ⟨.New ins.a, st, rfl, rfl, rfl, rfl, rfl, le_rfl, le_rfl, ha⟩
      · exact Or.inr ⟨.Done ins, st, rfl, rfl, rfl, rfl, rfl, le_rfl, le_rfl, h7, h8, h6⟩
    · rw [if_pos rfl]
      rw [isConstAt_eq st.code ins.b right hr]
      simp only [ebind_ok]
      cases hrc : right.op.is_const
      · rw [if_neg (by decide)]
        rw [isKintAt_eq st.code ins.b right 1 hr]
        simp only [ebind_ok]
        split
        · exact Or.inr ⟨.New ins.a, st, rfl, rfl, rfl, rfl, rfl, le_rfl, le_rfl, ha⟩
        · exact Or.inr ⟨.Done ins, st, rfl, rfl, rfl, rfl, rfl, le_rfl, le_rfl, h7, h8, h6⟩
      · rw [if_pos rfl]
        rcases constFold_total st ins left right hl hr hlc hrc hcode (by rw [hop]; decide)
            h4 h5 with h | ⟨k, st1, hk, hc1, hc2, hc3, hc4, hc5, hc6, hk1, hk2, hk3⟩
        · exact Or.inl h
        · exact Or.inr ⟨.Done k, st1, hk, hc1, hc2, hc3, hc4, hc5, hc6, hk1, hk2,
            fun s hs => by rw [hk3] at hs; cases hs⟩
  case SUB =>
    have ha := h1 (by rw [hop]; decide)
    have hb := h2 (by rw [hop]; decide)
    obtain ⟨left, hl⟩ : ∃ x, st.code[ins.a]? = some x := ⟨_, List.getElem?_eq_getElem ha⟩
    obtain ⟨right, hr⟩ : ∃ x, st.code[ins.b]? = some x := ⟨_, List.getElem?_eq_getElem hb⟩
    unfold fold
    rw [hop]
    dsimp only
    rw [isConstAt_eq st.code ins.a left hl]
    simp only [ebind_ok]
    cases hlc : left.op.is_const
    · rw [if_neg (by decide)]
      exact Or.inr ⟨.Done ins, st, rfl, rfl, rfl, rfl, rfl, le_rfl, le_rfl, h7, h8, h6⟩
    · rw [if_pos rfl]
      rw [isConstAt_eq st.code ins.b right hr]
      simp only [ebind_ok]
      cases hrc : right.op.is_const
      · rw [if_neg (by decide)]
        exact Or.inr ⟨.Done ins, st, rfl, rfl, rfl, rfl, rfl, le_rfl, le_rfl, h7, h8, h6⟩
      · rw [if_pos rfl]
        rcases constFold_total st ins left right hl hr hlc hrc hcode (by rw [hop]; decide)
            h4 h5 with h | ⟨k, st1, hk, hc1, hc2, hc3, hc4, hc5, hc6, hk1, hk2, hk3⟩
        · exact Or.inl h
        · exact Or.inr ⟨.Done k, st1, hk, hc1, hc2, hc3, hc4, hc5, hc6, hk1, hk2,
            fun s hs => by rw [hk3] at hs; cases hs⟩
  case POW =>
    have ha := h1 (by rw [hop]; decide)
    have hb := h2 (by rw [hop]; decide)
    obtain ⟨left, hl⟩ : ∃ x, st.code[ins.a]? = some x := ⟨_, List.getElem?_eq_getElem ha⟩
    obtain ⟨right, hr⟩ : ∃ x, st.code[ins.b]? = some x := ⟨_, List.getElem?_eq_getElem hb⟩
    unfold fold
    rw [hop]
    dsimp only
    rw [isConstAt_eq st.code ins.a left hl]
    simp only [ebind_ok]
    cases hlc : left.op.is_const
    · rw [if_neg (by decide)]
      exact Or.inr ⟨.Done ins, st, rfl, rfl, rfl, rfl, rfl, le_rfl, le_rfl, h7, h8, h6⟩
    · rw [if_pos rfl]
      rw [isConstAt_eq st.code ins.b right hr]
      simp only [ebind_ok]
      cases hrc : right.op.is_const
      · rw [if_neg (by decide)]
        exact Or.inr ⟨.Done ins, st, rfl, rfl, rfl, rfl, rfl, le_rfl, le_rfl, h7, h8, h6⟩
      · rw [if_pos rfl]
        rcases constFold_total st ins left right hl hr hlc hrc hcode (by rw [hop]; decide)
            h4 h5 with h | ⟨k, st1, hk, hc1, hc2, hc3, hc4, hc5, hc6, hk1, hk2, hk3⟩
        · exact Or.inl h
        · exact Or.inr ⟨.Done k, st1, hk, hc1, hc2, hc3, hc4, hc5, hc6, hk1, hk2,
            fun s hs => by rw [hk3] at hs; cases hs⟩

theorem foldSteps_succ_err (st : St) (ins : Ins) (e : Panic) (fuel : Nat)
    (h : fold st ins = .error e) :
    foldSteps (fuel + 1) st ins = .error e := by
  conv_lhs => rw [foldSteps]
  rw [h]
  rfl

theorem foldSteps_total (L : Nat) (st : St) (ins : Ins) (fuel : Nat)
    (hfuel : 2 ≤ fuel)
    (h1 : 1 ≤ ins.op.numInputs → ins.a < st.code.length)
    (h2 : 2 ≤ ins.op.numInputs → ins.b < st.code.length)
    (hcode : ∀ i ∈ st.code,
      (i.op = .KINT64 → i.bc < st.ipool.length) ∧ (i.op = .KFP64 → i.bc < st.fpool.length))
    (h4 : ins.op = .POW → ins.ty = .f32 ∨ ins.ty = .f64)
    (h5 : ins.op = .UDIV → ¬(ins.ty = .f32 ∨ ins.ty = .f64))
    (h6 : ∀ s ∈ ins.op.controlSlots, ins.getSlot s < L)
    (h7 : ins.op = .KINT64 → ins.bc < st.ipool.length)
    (h8 : ins.op = .KFP64 → ins.bc < st.fpool.length) :
    foldSteps fuel st ins = .error .divFault ∨
    ∃ res st', foldSteps fuel st ins = .ok (res, st') ∧
      st'.code = st.code ∧ st'.cse_map = st.cse_map ∧ st'.next = st.next ∧
      st'.old_new = st.old_new ∧
      st.ipool.length ≤ st'.ipool.length ∧ st.fpool.length ≤ st'.fpool.length ∧
      (match res with
       | .Done d =>
           (d.op = .KINT64 → d.bc < st'.ipool.length) ∧
           (d.op = .KFP64 → d.bc < st'.fpool.length) ∧
           (∀ s ∈ d.op.controlSlots, d.getSlot s < L)
       | .New n => n < st.code.length) := by
  obtain ⟨f, rfl⟩ : ∃ f, fuel = f + 2 := ⟨fuel - 2, by omega⟩
  rcases fold_total L st ins h1 h2 hcode h4 h5 h6 h7 h8 with herr |
    ⟨res, st1, hok, hc1, hc2, hc3, hc4, hc5, hc6, hpost⟩
  · exact Or.inl (foldSteps_succ_err st ins _ (f + 1) herr)
  · cases res with
    | Done d =>
      exact Or.inr ⟨.Done d, st1, foldSteps_succ_done st ins d st1 (f + 1) hok,
        hc1, hc2, hc3, hc4, hc5, hc6, hpost⟩
    | New n =>
      exact Or.inr ⟨.New n, st1, foldSteps_succ_new st ins n st1 (f + 1) hok,
        hc1, hc2, hc3, hc4, hc5, hc6, hpost⟩
    | Again ins2 =>
      obtain ⟨hsw, hst, hopadd, left, right, hl, hr, hguard⟩ := hpost
      subst st1
      subst hsw
      have hni : ins.op.numInputs = 2 := by
        rcases hopadd with h | h <;> rw [h] <;> rfl
      have hstep := foldSteps_succ_again st ins (swap01 ins) st (f + 1) hok
      have h1s : 1 ≤ (swap01 ins).op.numInputs → (swap01 ins).a < st.code.length :=
        fun _ => h2 (by omega)
      have h2s : 2 ≤ (swap01 ins).op.numInputs → (swap01 ins).b < st.code.length :=
        fun _ => h1 (by omega)
      have h6s : ∀ s ∈ (swap01 ins).op.controlSlots, (swap01 ins).getSlot s < L := by
        intro s hs
        rw [show (swap01 ins).op = ins.op from rfl,
          numInputs2_controlSlots ins.op (by omega)] at hs
        cases hs
      have h7s : (swap01 ins).op = .KINT64 → (swap01 ins).bc < st.ipool.length := by
        intro h
        rw [show (swap01 ins).op = ins.op from rfl] at h
        rw [h] at hni
        exact absurd hni (by decide)
      have h8s : (swap01 ins).op = .KFP64 → (swap01 ins).bc < st.fpool.length := by
        intro h
        rw [show (swap01 ins).op = ins.op from rfl] at h
        rw [h] at hni
        exact absurd hni (by decide)
      rcases fold_total L st (swap01 ins) h1s h2s hcode h4 h5 h6s h7s h8s with herr2 |
        ⟨res2, st2, hok2, hd1, hd2, hd3, hd4, hd5, hd6, hpost2⟩
      · rw [hstep]
        exact Or.inl (foldSteps_succ_err st (swap01 ins) _ f herr2)
      · cases res2 with
        | Done d =>
          rw [hstep]
          exact Or.inr ⟨.Done d, st2, foldSteps_succ_done st (swap01 ins) d st2 f hok2,
            hd1, hd2, hd3, hd4, hd5, hd6, hpost2⟩
        | New n =>
          rw [hstep]
          exact Or.inr ⟨.New n, st2, foldSteps_succ_new st (swap01 ins) n st2 f hok2,
            hd1, hd2, hd3, hd4, hd5, hd6, hpost2⟩
        | Again ins3 =>
          obtain ⟨_, _, _, left2, right2, hl2, hr2, hguard2⟩ := hpost2
          have e1 : some right = some left2 := by rw [← hr]; exact hl2
          have e2 : some left = some right2 := by rw [← hl]; exact hr2
          injection e1 with e1
          injection e2 with e2
          subst e1
          subst e2
          simp only [swap01] at hguard2
          rcases hguard with ⟨g1, g2⟩ | ⟨g1, g2, g3⟩ <;>
            rcases hguard2 with ⟨k1, k2⟩ | ⟨k1, k2, k3⟩ <;> simp_all <;> omega

theorem doneInsert_inv (fn : Func) (ipl fpl ex : Nat) (st : St) (ins : Ins)
    (hInv : VisitInv fn ipl fpl ex st)
    (hok : insOk fn.code.length ex st ins) :
    VisitInv fn ipl fpl ex (doneInsert st ins).2 ∧
    (doneInsert st ins).1 < (doneInsert st ins).2.code.length ∧
    (doneInsert st ins).2.old_new = st.old_new ∧
    (doneInsert st ins).2.next = st.next ∧
    (doneInsert st ins).2.ipool = st.ipool ∧
    (doneInsert st ins).2.fpool = st.fpool ∧
    st.code.length ≤ (doneInsert st ins).2.code.length := by
  obtain ⟨a, b, c, d, e, f, g⟩ := hInv
  unfold doneInsert
  split
  · split
    · rename_i idx hfind
      have hp := List.find?_some hfind
      have : st.code[idx]? = some ins := by
        have := beq_iff_eq.mp hp
        exact this
      refine ⟨⟨a, b, c, d, e, f, g⟩, getElem?_lt _ _ _ this, rfl, rfl, rfl, rfl, le_rfl⟩
    · refine ⟨⟨a, fun i v h => lt_of_lt_of_le (b i v h) (by simp), ?_, ?_, ?_, ?_, ?_⟩,
        ?_, rfl, rfl, rfl, rfl, ?_⟩
      · exact c
      · exact d
      · exact e
      · intro i hi
        rcases List.mem_append.mp hi with hi | hi
        · exact insOk_mono _ _ st _ i (fun x h => h) (fun _ _ h => h) le_rfl le_rfl (f i hi)
        · rcases List.mem_singleton.mp hi with rfl
          exact insOk_mono _ _ st _ i (fun x h => h) (fun _ _ h => h) le_rfl le_rfl hok
      · exact g
      · simp
      · simp
  · refine ⟨⟨a, fun i v h => lt_of_lt_of_le (b i v h) (by simp), ?_, ?_, ?_, ?_, ?_⟩,
      ?_, rfl, rfl, rfl, rfl, ?_⟩
    · exact c
    · exact d
    · exact e
    · intro i hi
      rcases List.mem_append.mp hi with hi | hi
      · exact insOk_mono _ _ st _ i (fun x h => h) (fun _ _ h => h) le_rfl le_rfl (f i hi)
      · rcases List.mem_singleton.mp hi with rfl
        exact insOk_mono _ _ st _ i (fun x h => h) (fun _ _ h => h) le_rfl le_rfl hok
    · exact g
    · simp
    · simp

theorem doneHandler_inv (fn : Func) (ipl fpl ex : Nat) (st : St) (ins : Ins)
    (hInv : VisitInv fn ipl fpl ex st)
    (hd1 : ins.op = .KINT64 → ins.bc < st.ipool.length)
    (hd2 : ins.op = .KFP64 → ins.bc < st.fpool.length)
    (hd3 : ∀ s ∈ ins.op.controlSlots, ins.getSlot s < fn.code.length) :
    VisitInv fn ipl fpl ex (doneHandler st ins).2 ∧
    (doneHandler st ins).1 < (doneHandler st ins).2.code.length ∧
    (doneHandler st ins).2.old_new = st.old_new ∧
    (∀ x ∈ st.next, x ∈ (doneHandler st ins).2.next) ∧
    (doneHandler st ins).2.next.length ≤ st.next.length + 2 ∧
    st.ipool.length ≤ (doneHandler st ins).2.ipool.length ∧
    st.fpool.length ≤ (doneHandler st ins).2.fpool.length ∧
    st.code.length ≤ (doneHandler st ins).2.code.length := by
  unfold doneHandler
  split
  · -- control instruction: enqueue successors first
    obtain ⟨a, b, c, d, e, f, g⟩ := hInv
    have hInvN : VisitInv fn ipl fpl ex
        { st with next := st.next ++ ins.op.controlSlots.map ins.getSlot } := by
      refine ⟨a, b, ?_, d, e, ?_, ?_⟩
      · intro x hx
        rcases List.mem_append.mp hx with hx | hx
        · exact c x hx
        · obtain ⟨s, hs, rfl⟩ := List.mem_map.mp hx
          exact hd3 s hs
      · intro i hi
        exact insOk_mono _ _ st _ i (fun x h => List.mem_append.mpr (Or.inl h))
          (fun _ _ h => h) le_rfl le_rfl (f i hi)
      · rcases g with h | h | h
        · exact Or.inl h
        · exact Or.inr (Or.inl (List.mem_append.mpr (Or.inl h)))
        · exact Or.inr (Or.inr h)
    have hokN : insOk fn.code.length ex
        { st with next := st.next ++ ins.op.controlSlots.map ins.getSlot } ins := by
      refine ⟨hd1, hd2, fun s hs => ⟨hd3 s hs, ?_⟩⟩
      exact Or.inr (Or.inl (List.mem_append.mpr (Or.inr (List.mem_map.mpr ⟨s, hs, rfl⟩))))
    have hres := doneInsert_inv fn ipl fpl ex _ ins hInvN hokN
    refine ⟨hres.1, hres.2.1, hres.2.2.1, ?_, ?_, ?_, ?_, hres.2.2.2.2.2.2⟩
    · intro x hx
      rw [hres.2.2.2.1]
      exact List.mem_append.mpr (Or.inl hx)
    · rw [hres.2.2.2.1]
      simp only [List.length_append, List.length_map]
      have := controlSlots_len ins.op
      omega
    · rw [hres.2.2.2.2.1]
    · rw [hres.2.2.2.2.2.1]
  · -- non-control: no successors
    rename_i hnc
    have hok : insOk fn.code.length ex st ins := by
      refine ⟨hd1, hd2, fun s hs => ?_⟩
      rw [notControl_controlSlots ins.op (Bool.not_eq_true _ ▸ hnc)] at hs
      cases hs
    have hres := doneInsert_inv fn ipl fpl ex st ins hInv hok
    refine ⟨hres.1, hres.2.1, hres.2.2.1, ?_, ?_, ?_, ?_, hres.2.2.2.2.2.2⟩
    · intro x hx
      rw [hres.2.2.2.1]
      exact hx
    · rw [hres.2.2.2.1]
      omega
    · rw [hres.2.2.2.2.1]
    · rw [hres.2.2.2.2.2.1]

theorem visitInv_set (fn : Func) (ipl fpl ex : Nat) (st : St) (id n : Nat)
    (hInv : VisitInv fn ipl fpl ex st)
    (hn : n < st.code.length)
    (hidlt : id < st.old_new.length)
    (hunset : st.old_new[id]? = some none) :
    VisitInv fn ipl fpl ex { st with old_new := st.old_new.set id (some n) } := by
  obtain ⟨a, b, c, d, e, f, g⟩ := hInv
  have hmono : ∀ (i v : Nat), st.old_new[i]? = some (some v) →
      (st.old_new.set id (some n))[i]? = some (some v) := by
    intro i v h
    by_cases hi : id = i
    · subst hi
      rw [hunset] at h
      injection h with h
      exact absurd h (by simp)
    · rw [List.getElem?_set_ne hi]
      exact h
  refine ⟨by simpa using a, ?_, c, d, e, ?_, ?_⟩
  · intro i v h
    by_cases hi : id = i
    · subst hi
      rw [List.getElem?_set_self hidlt] at h
      injection h with h
      injection h with h
      exact h ▸ hn
    · rw [List.getElem?_set_ne hi] at h
      exact b i v h
  · intro i hi
    exact insOk_mono _ _ st _ i (fun x h => h) hmono le_rfl le_rfl (f i hi)
  · rcases g with h | h | ⟨v, h⟩
    · exact Or.inl h
    · exact Or.inr (Or.inl h)
    · exact Or.inr (Or.inr ⟨v, hmono _ v h⟩)

theorem visitFinish_total (fn : Func) (ipl fpl ex : Nat) (fuel : Nat) (st : St)
    (id : Nat) (ins : Ins)
    (hInv : VisitInv fn ipl fpl ex st)
    (hfuel : 2 ≤ fuel)
    (hid : id < fn.code.length)
    (hunset : st.old_new[id]? = some none)
    (h1 : 1 ≤ ins.op.numInputs → ins.a < st.code.length)
    (h2 : 2 ≤ ins.op.numInputs → ins.b < st.code.length)
    (h4 : ins.op = .POW → ins.ty = .f32 ∨ ins.ty = .f64)
    (h5 : ins.op = .UDIV → ¬(ins.ty = .f32 ∨ ins.ty = .f64))
    (h6 : ∀ s ∈ ins.op.controlSlots, ins.getSlot s < fn.code.length)
    (h7 : ins.op = .KINT64 → ins.bc < st.ipool.length)
    (h8 : ins.op = .KFP64 → ins.bc < st.fpool.length) :
    visitFinish fuel st id ins = .error .divFault ∨
    ∃ r st', visitFinish fuel st id ins = .ok (r, st') ∧
      VisitInv fn ipl fpl ex st' ∧ StExt st st' ∧
      r < st'.code.length ∧ st'.old_new[id]? = some (some r) ∧
      Pot st' + 1 ≤ Pot st ∧
      (∀ j, j ≠ id → st'.old_new[j]? = st.old_new[j]?) := by
  have hcode : ∀ i ∈ st.code, (i.op = .KINT64 → i.bc < st.ipool.length) ∧
      (i.op = .KFP64 → i.bc < st.fpool.length) := by
    intro i hi
    obtain ⟨x, y, _⟩ := hInv.2.2.2.2.2.1 i hi
    exact ⟨x, y⟩
  have hidlt : id < st.old_new.length := by
    rw [hInv.1]
    exact hid
  rcases foldSteps_total fn.code.length st ins fuel hfuel h1 h2 hcode h4 h5 h6 h7 h8 with
    herr | ⟨res, st1, hok, hc1, hc2, hc3, hc4, hc5, hc6, hpost⟩
  · left
    unfold visitFinish
    rw [herr]
    rfl
  · have hInv1 : VisitInv fn ipl fpl ex st1 := by
      obtain ⟨a, b, c, d, e, f, g⟩ := hInv
      refine ⟨by rw [hc4]; exact a, ?_, ?_, d.trans hc5, e.trans hc6, ?_, ?_⟩
      · intro i v h
        rw [hc4] at h
        rw [hc1]
        exact b i v h
      · intro x hx
        rw [hc3] at hx
        exact c x hx
      · intro i hi
        rw [hc1] at hi
        exact insOk_mono _ _ st _ i (fun x h => by rw [hc3]; exact h)
          (fun j v h => by rw [hc4]; exact h) hc5 hc6 (f i hi)
      · rcases g with h | h | ⟨v, h⟩
        · exact Or.inl h
        · exact Or.inr (Or.inl (by rw [hc3]; exact h))
        · exact Or.inr (Or.inr ⟨v, by rw [hc4]; exact h⟩)
    have hunset1 : st1.old_new[id]? = some none := by rw [hc4]; exact hunset
    have hidlt1 : id < st1.old_new.length := by rw [hc4]; exact hidlt
    cases res with
    | New n =>
      right
      refine ⟨n, { st1 with old_new := st1.old_new.set id (some n) }, ?_, ?_, ?_, ?_, ?_, ?_, ?_⟩
      · unfold visitFinish
        rw [hok]
        rfl
      · exact visitInv_set fn ipl fpl ex st1 id n hInv1 (by rw [hc1]; exact hpost)
          hidlt1 hunset1
      · refine ⟨by simpa using congrArg List.length hc4, ?_, le_of_eq (congrArg List.length hc1.symm), ?_, hc5, hc6⟩
        · intro i v h
          by_cases hi : id = i
          · subst hi
            rw [hunset] at h
            injection h with h
            exact absurd h (by simp)
          · rw [List.getElem?_set_ne hi, hc4]
            exact h
        · intro x hx
          rw [hc3]
          exact hx
      · simpa [hc1] using hpost
      · exact List.getElem?_set_self hidlt1
      · have hcn := countNone_set st1.old_new id n hunset1
        have hcn4 : countNone st1.old_new = countNone st.old_new := by rw [hc4]
        simp only [Pot]
        rw [hc3]
        omega
      · intro j hj
        rw [List.getElem?_set_ne (fun h => hj h.symm), hc4]
    | Done d =>
      obtain ⟨hd1, hd2, hd3⟩ := hpost
      have hres := doneHandler_inv fn ipl fpl ex st1 d hInv1 hd1 hd2 hd3
      right
      refine ⟨(doneHandler st1 d).1,
        { (doneHandler st1 d).2 with
          old_new := (doneHandler st1 d).2.old_new.set id (some (doneHandler st1 d).1) },
        ?_, ?_, ?_, ?_, ?_, ?_, ?_⟩
      · unfold visitFinish
        rw [hok]
        rfl
      · exact visitInv_set fn ipl fpl ex (doneHandler st1 d).2 id (doneHandler st1 d).1
          hres.1 hres.2.1 (by rw [hres.2.2.1]; exact hidlt1)
          (by rw [hres.2.2.1]; exact hunset1)
      · refine ⟨?_, ?_, ?_, ?_, ?_, ?_⟩
        · simp only [List.length_set]
          rw [hres.2.2.1, hc4]
        · intro i v h
          by_cases hi : id = i
          · subst hi
            rw [hunset] at h
            injection h with h
            exact absurd h (by simp)
          · rw [List.getElem?_set_ne hi, hres.2.2.1, hc4]
            exact h
        · calc st.code.length = st1.code.length := by rw [hc1]
            _ ≤ (doneHandler st1 d).2.code.length := hres.2.2.2.2.2.2.2
        · intro x hx
          exact hres.2.2.2.1 x (by rw [hc3]; exact hx)
        · calc st.ipool.length ≤ st1.ipool.length := hc5
            _ ≤ (doneHandler st1 d).2.ipool.length := hres.2.2.2.2.2.1
        · calc st.fpool.length ≤ st1.fpool.length := hc6
            _ ≤ (doneHandler st1 d).2.fpool.length := hres.2.2.2.2.2.2.1
      · exact hres.2.1
      · exact List.getElem?_set_self (by rw [hres.2.2.1]; exact hidlt1)
      · have hcn := countNone_set (doneHandler st1 d).2.old_new id (doneHandler st1 d).1
          (by rw [hres.2.2.1]; exact hunset1)
        have heq : countNone (doneHandler st1 d).2.old_new = countNone st.old_new := by
          rw [hres.2.2.1, hc4]
        have hnl : (doneHandler st1 d).2.next.length ≤ st.next.length + 2 := by
          have := hres.2.2.2.2.1
          rw [hc3] at this
          exact this
        simp only [Pot]
        omega
      · intro j hj
        rw [List.getElem?_set_ne (fun h => hj h.symm), hres.2.2.1, hc4]

theorem visit_total (fn : Func) (ipl fpl : Nat) (rank : Nat → Nat)
    (hwf : funcWf ipl fpl fn) (hrank : rankOk fn rank) :
    ∀ (fuel : Nat) (st : St) (id ex : Nat),
      VisitInv fn ipl fpl ex st → id < fn.code.length → rank id + 2 ≤ fuel →
      visit fn fuel st id = .error .divFault ∨
      ∃ r st', visit fn fuel st id = .ok (r, st') ∧
        VisitInv fn ipl fpl ex st' ∧ StExt st st' ∧
        r < st'.code.length ∧ st'.old_new[id]? = some (some r) ∧
        Pot st' ≤ Pot st ∧
        (∀ j, st'.old_new[j]? ≠ st.old_new[j]? → rank j ≤ rank id) := by
  intro fuel
  induction fuel with
  | zero => intro st id ex hInv hid hfuel; omega
  | succ n ih =>
    intro st id ex hInv hid hfuel
    rw [visit_succ]
    cases hon : st.old_new[id]? with
    | none =>
      exfalso
      have hlt : id < st.old_new.length := by rw [hInv.1]; exact hid
      rw [List.getElem?_eq_getElem hlt] at hon
      simp at hon
    | some o =>
      cases o with
      | some v =>
        exact Or.inr ⟨v, st, rfl, hInv, stext_rfl st, hInv.2.1 id v hon, hon, le_rfl,
          fun j hj => absurd rfl hj⟩
      | none =>
        cases hcode : fn.code[id]? with
        | none =>
          exfalso
          rw [List.getElem?_eq_getElem hid] at hcode
          simp at hcode
        | some ins =>
          have hwfi := hwf.2 ins (List.getElem?_mem hcode)
          obtain ⟨w1, w2, w3, w4, w5, w6, w7⟩ := hwfi
          have hgetD : fn.code.getD id default = ins := by
            rw [List.getD_eq_getElem?_getD, hcode]
            rfl
          have hrid := hrank id hid
          rw [hgetD] at hrid
          have h7 : ins.op = .KINT64 → ins.bc < st.ipool.length :=
            fun h => lt_of_lt_of_le (w4 h) hInv.2.2.2.1
          have h8 : ins.op = .KFP64 → ins.bc < st.fpool.length :=
            fun h => lt_of_lt_of_le (w5 h) hInv.2.2.2.2.1
          dsimp only
          by_cases hn0 : ins.op.numInputs = 0
          · rw [if_pos hn0]
            rcases visitFinish_total fn ipl fpl ex (n + 1) st id ins hInv (by omega) hid hon
                (fun h => by omega) (fun h => by omega) w6 w7 w3 h7 h8 with
              herr | ⟨r, st', heq, hI, hE, hr, hrec, hpot, hch⟩
            · exact Or.inl herr
            · refine Or.inr ⟨r, st', heq, hI, hE, hr, hrec, by omega, fun j hj => ?_⟩
              by_cases hji : j = id
              · subst hji; exact le_rfl
              · exact absurd (hch j hji) hj
          · rw [if_neg hn0]
            have hna : 1 ≤ ins.op.numInputs := by omega
            have ha : ins.a < fn.code.length := w1 hna
            have hranka : rank ins.a < rank id := hrid.1 hna
            rcases ih st ins.a ex hInv ha (by omega) with herr |
              ⟨v, st1, hva, hI1, hE1, hv, hrec1, hpot1, hch1⟩
            · rw [herr]
              exact Or.inl (ebind_err _ _)
            · rw [hva]
              simp only [ebind_ok]
              have hon1 : st1.old_new[id]? = some none := by
                by_cases hch : st1.old_new[id]? = st.old_new[id]?
                · rw [hch, hon]
                · exact absurd (hch1 id hch) (by omega)
              by_cases hn1 : ins.op.numInputs = 1
              · rw [if_pos hn1]
                have h7p : ({ ins with a := v } : Ins).op = .KINT64 →
                    ({ ins with a := v } : Ins).bc < st1.ipool.length := by
                  intro h
                  rw [show ({ ins with a := v } : Ins).op = ins.op from rfl] at h
                  rw [h] at hn1
                  exact absurd hn1 (by decide)
                have h8p : ({ ins with a := v } : Ins).op = .KFP64 →
                    ({ ins with a := v } : Ins).bc < st1.fpool.length := by
                  intro h
                  rw [show ({ ins with a := v } : Ins).op = ins.op from rfl] at h
                  rw [h] at hn1
                  exact absurd hn1 (by decide)
                have h6p : ∀ s ∈ ({ ins with a := v } : Ins).op.controlSlots,
                    ({ ins with a := v } : Ins).getSlot s < fn.code.length := by
                  intro s hs
                  rw [show ({ ins with a := v } : Ins).op = ins.op from rfl] at hs
                  rw [getSlot_seta ins v s (numInputs1_controlSlots ins.op hna s hs)]
                  exact w3 s hs
                rcases visitFinish_total fn ipl fpl ex (n + 1) st1 id { ins with a := v }
                    hI1 (by omega) hid hon1 (fun _ => hv)
                    (fun h => by have h2d : 2 ≤ ins.op.numInputs := h; omega)
                    w6 w7 h6p h7p h8p with
                  herr | ⟨r, st2, heq, hI2, hE2, hr, hrec2, hpot2, hch2⟩
                · exact Or.inl herr
                · refine Or.inr ⟨r, st2, heq, hI2, stext_trans st st1 st2 hE1 hE2, hr, hrec2,
                    by omega, fun j hj => ?_⟩
                  by_cases hji : j = id
                  · subst hji; exact le_rfl
                  · by_cases hst1 : st1.old_new[j]? = st.old_new[j]?
                    · rw [hch2 j hji, hst1] at hj
                      exact absurd rfl hj
                    · exact le_trans (hch1 j hst1) (le_of_lt hranka)
              · have hnb : 2 ≤ ins.op.numInputs := by omega
                have hb : ins.b < fn.code.length := w2 hnb
                have hrankb : rank ins.b < rank id := hrid.2 hnb
                rw [if_neg hn1]
                rcases ih st1 ins.b ex hI1 hb (by omega) with herr |
                  ⟨v2, st2, hvb, hI2, hE2, hv2, hrec2b, hpot2, hch2⟩
                · rw [herr]
                  exact Or.inl (ebind_err _ _)
                · rw [hvb]
                  simp only [ebind_ok]
                  have hon2 : st2.old_new[id]? = some none := by
                    by_cases hch : st2.old_new[id]? = st1.old_new[id]?
                    · rw [hch, hon1]
                    · exact absurd (hch2 id hch) (by omega)
                  have h7p : ({ ins with a := v, b := v2 } : Ins).op = .KINT64 →
                      ({ ins with a := v, b := v2 } : Ins).bc < st2.ipool.length := by
                    intro h
                    rw [show ({ ins with a := v, b := v2 } : Ins).op = ins.op from rfl] at h
                    rw [h] at hnb
                    exact absurd hnb (by decide)
                  have h8p : ({ ins with a := v, b := v2 } : Ins).op = .KFP64 →
                      ({ ins with a := v, b := v2 } : Ins).bc < st2.fpool.length := by
                    intro h
                    rw [show ({ ins with a := v, b := v2 } : Ins).op = ins.op from rfl] at h
                    rw [h] at hnb
                    exact absurd hnb (by decide)
                  have h6p : ∀ s ∈ ({ ins with a := v, b := v2 } : Ins).op.controlSlots,
                      ({ ins with a := v, b := v2 } : Ins).getSlot s < fn.code.length := by
                    intro s hs
                    rw [show ({ ins with a := v, b := v2 } : Ins).op = ins.op from rfl,
                      numInputs2_controlSlots ins.op hnb] at hs
                    cases hs
                  rcases visitFinish_total fn ipl fpl ex (n + 1) st2 id
                      { ins with a := v, b := v2 } hI2 (by omega) hid hon2
                      (fun _ => lt_of_lt_of_le hv hE2.2.2.1) (fun _ => hv2)
                      w6 w7 h6p h7p h8p with
                    herr | ⟨r, st3, heq, hI3, hE3, hr, hrec3, hpot3, hch3⟩
                  · exact Or.inl herr
                  · refine Or.inr ⟨r, st3, heq, hI3,
                      stext_trans st st1 st3 hE1 (stext_trans st1 st2 st3 hE2 hE3), hr, hrec3,
                      by omega, fun j hj => ?_⟩
                    by_cases hji : j = id
                    · subst hji; exact le_rfl
                    · by_cases hst2 : st2.old_new[j]? = st1.old_new[j]?
                      · by_cases hst1 : st1.old_new[j]? = st.old_new[j]?
                        · rw [hch3 j hji, hst2, hst1] at hj
                          exact absurd rfl hj
                        · exact le_trans (hch1 j hst1) (le_of_lt hranka)
                      · exact le_trans (hch2 j hst2) (le_of_lt hrankb)

theorem runQueue_total (fn : Func) (ipl fpl : Nat) (rank : Nat → Nat)
    (hwf : funcWf ipl fpl fn) (hrank : rankOk fn rank) (vfuel : Nat)
    (hv : ∀ i, i < fn.code.length → rank i + 2 ≤ vfuel) :
    ∀ (qfuel : Nat) (st : St),
      VisitInv fn ipl fpl fn.code.length st → Pot st ≤ qfuel →
      runQueue fn vfuel qfuel st = .error .divFault ∨
      ∃ st', runQueue fn vfuel qfuel st = .ok st' ∧
        VisitInv fn ipl fpl fn.code.length st' ∧ st'.next = [] := by
  intro qfuel
  induction qfuel with
  | zero =>
    intro st hInv hpot
    rw [runQueue_zero]
    cases hnext : st.next with
    | nil => exact Or.inr ⟨st, rfl, hInv, hnext⟩
    | cons x rest =>
      exfalso
      have : st.next.length = 0 := by
        have := hpot
        simp only [Pot] at this
        omega
      rw [hnext] at this
      simp at this
  | succ m ih =>
    intro st hInv hpot
    rw [runQueue_succ]
    cases hnext : st.next with
    | nil => exact Or.inr ⟨st, rfl, hInv, hnext⟩
    | cons id rest =>
      have hid : id < fn.code.length := hInv.2.2.1 id (by rw [hnext]; exact List.mem_cons_self id rest)
      have hpop := visitInv_pop fn ipl fpl st id rest hInv hwf.1 hnext
      dsimp only
      rcases visit_total fn ipl fpl rank hwf hrank vfuel { st with next := rest } id id
          hpop hid (hv id hid) with herr | ⟨r, st1, hvis, hI1, hE1, hr, hrec, hpot1, hch⟩
      · rw [herr]
        exact Or.inl (ebind_err _ _)
      · rw [hvis]
        simp only [ebind_ok]
        have hI1' : VisitInv fn ipl fpl fn.code.length st1 :=
          visitInv_switch fn ipl fpl id fn.code.length st1 ⟨r, hrec⟩ hI1
        have hps : Pot { st with next := rest } + 1 = Pot st := by
          simp only [Pot, hnext, List.length_cons]
          omega
        have hpot2 : Pot st1 ≤ m := by omega
        exact ih st1 hI1' hpot2

theorem fixSlots_total (old_new : List (Option Nat)) :
    ∀ (slots : List Nat) (ins : Ins), slots.Nodup → (∀ s ∈ slots, s < 3) →
      (∀ s ∈ slots, ∃ v, old_new[ins.getSlot s]? = some (some v)) →
      ∃ ins', fixSlots old_new ins slots = .ok ins' := by
  intro slots
  induction slots with
  | nil => intro ins _ _ _; exact ⟨ins, rfl⟩
  | cons s rest ih =>
    intro ins hnd h3 hset
    obtain ⟨v, hv⟩ := hset s (List.mem_cons_self s rest)
    unfold fixSlots
    rw [hv]
    apply ih (ins.setSlot s v) (List.Nodup.of_cons hnd)
      (fun t ht => h3 t (List.mem_cons_of_mem s ht))
    intro t ht
    rw [getSlot_setSlot_ne ins s t v (h3 s (List.mem_cons_self s rest))
      (h3 t (List.mem_cons_of_mem s ht))
      (fun he => (List.nodup_cons.mp hnd).1 (he ▸ ht))]
    exact hset t (List.mem_cons_of_mem s ht)

theorem fixupCode_total (old_new : List (Option Nat)) :
    ∀ (code : List Ins),
      (∀ ins ∈ code, ∀ s ∈ ins.op.controlSlots,
        ∃ v, old_new[ins.getSlot s]? = some (some v)) →
      ∃ code', fixupCode old_new code = .ok code' := by
  intro code
  induction code with
  | nil => exact fun _ => ⟨[], rfl⟩
  | cons ins rest ih =>
    intro hset
    obtain ⟨ins', hins⟩ := fixSlots_total old_new ins.op.controlSlots ins
      (controlSlots_nodup ins.op) (controlSlots_lt3 ins.op)
      (hset ins (List.mem_cons_self ins rest))
    obtain ⟨rest', hrest⟩ := ih (fun i hi => hset i (List.mem_cons_of_mem ins hi))
    refine ⟨ins' :: rest', ?_⟩
    unfold fixupCode
    rw [hins]
    simp only [ebind_ok]
    rw [hrest]
    rfl

/-- C2: amended completeness of the Fold pass.  For every well-formed input
function whose operand edges form a DAG (witnessed by a rank function) and
enough fuel for the embedding, `Fold::run` either completes and installs the
new code, or panics with a division fault from folding a constant division
whose divisor is zero (or `i64::MIN / -1`).  Contrary to the spec, the pass
does not leave such a division unfolded: it faults
(`fold_run_div_zero_cex`). -/
theorem fold_run_total (fuel : Nat) (ocx : Ocx) (fid : Nat) (fn : Func)
    (rank : Nat → Nat)
    (hfn : ocx.ir[fid]? = some fn)
    (hwf : funcWf ocx.ipool.length ocx.fpool.length fn)
    (hrank : rankOk fn rank)
    (hvf : ∀ i, i < fn.code.length → rank i + 2 ≤ fuel)
    (hqf : 3 * fn.code.length + 1 ≤ fuel) :
    (∃ ocx', Fold.run fuel ocx fid = .ok ocx') ∨
      Fold.run fuel ocx fid = .error .divFault := by
  unfold Fold.run
  rw [hfn]
  dsimp only
  have hInv0 : VisitInv fn ocx.ipool.length ocx.fpool.length fn.code.length
      ⟨List.replicate fn.code.length none, [fn.entry], [], [], ocx.ipool, ocx.fpool⟩ := by
    refine ⟨by simp, ?_, ?_, le_rfl, le_rfl, ?_, ?_⟩
    · intro i v h
      rw [List.getElem?_replicate] at h
      split at h <;> simp_all
    · intro x hx
      rcases List.mem_singleton.mp hx with rfl
      exact hwf.1
    · intro i hi
      exact absurd hi (List.not_mem_nil i)
    · exact Or.inr (Or.inl (List.mem_singleton.mpr rfl))
  have hpot0 : Pot ⟨List.replicate fn.code.length none, [fn.entry], [], [],
      ocx.ipool, ocx.fpool⟩ ≤ fuel := by
    simp only [Pot, countNone_replicate, List.length_singleton]
    omega
  rcases runQueue_total fn ocx.ipool.length ocx.fpool.length rank hwf hrank fuel hvf fuel
      ⟨List.replicate fn.code.length none, [fn.entry], [], [], ocx.ipool, ocx.fpool⟩
      hInv0 hpot0 with herr | ⟨st1, hq, hI1, hnil⟩
  · rw [herr]
    exact Or.inr (ebind_err _ _)
  · rw [hq]
    simp only [ebind_ok]
    have hset : ∀ ins ∈ st1.code, ∀ s ∈ ins.op.controlSlots,
        ∃ v, st1.old_new[ins.getSlot s]? = some (some v) := by
      intro ins hi s hs
      obtain ⟨_, _, h3⟩ := hI1.2.2.2.2.2.1 ins hi
      obtain ⟨hlt, hcase⟩ := h3 s hs
      rcases hcase with h | h | h
      · omega
      · rw [hnil] at h
        cases h
      · exact h
    obtain ⟨code', hcode'⟩ := fixupCode_total st1.old_new st1.code hset
    rw [hcode']
    simp only [ebind_ok]
    rcases hI1.2.2.2.2.2.2 with h | h | ⟨e, he⟩
    · exact absurd h (by have := hwf.1; omega)
    · rw [hnil] at h
      cases h
    · rw [he]
      exact Or.inl ⟨_, rfl⟩



/-- C2 counterexample: on a well-formed function computing `1 / 0` on
constants, the whole run panics with a division fault instead of completing
with the `DIV` left unfolded. -/
theorem fold_run_div_zero_cex : Fold.run 20 cexDivOcx 0 = .error .divFault := rfl

/-- C2 witness: a concrete well-formed two-instruction function on which the
hypotheses of `fold_run_total` hold with fuel 20 and the identity rank. -/
theorem fold_run_total_witness :
    (∃ ocx', Fold.run 20 wTotalOcx 0 = .ok ocx') ∨
      Fold.run 20 wTotalOcx 0 = .error .divFault :=
  fold_run_total 20 wTotalOcx 0 wTotalFn (fun i => i) rfl (by decide) (by decide)
    (by decide) (by decide)
